import Mathlib

/-!
Verification of the expression-grammar core of the Dotfiles language
front end (src/parser/src/expression_parser.rs and src/parser/src/parser.rs).

The Rust code builds a chumsky parser over a slice of lexed tokens.  We give
a shallow embedding: each combinator-built parser becomes an executable Lean
function from a token list and a start position to a result

  PRes alpha ::= ok (value) (next position) | fail | out

where out is fuel exhaustion.  All recursion is structural on an explicit
fuel parameter so that every definition evaluates by kernel reduction; the
theorems below show that fuel (length of input + 1) is always sufficient
(the parse never returns out), which is exactly the grammar's liveness
guarantee: every repetition consumes input, so the fuelled model and the
unfuelled Rust parser agree.

Spans are modelled, as the specification's data model prescribes, as
half-open offset ranges into the token sequence: the lexer pairs token
number i with span (i, i+1), and chumsky's map_with_span then yields
exactly (start position, end position) of the consumed range.

PEG conventions mirrored from chumsky: choice/or is ordered and commits to
the first succeeding alternative; a failing alternative consumes nothing;
sequencing fails as a whole without partial consumption; repetition is
greedy, rewinding the failing final iteration; recover_with runs its
recovery parser from the original position only when the main parser
failed.  nested_delimiters is modelled after chumsky's implementation: it
consumes the opening token, then repeatedly either a properly nested
delimited block of one of the registered bracket kinds or any single token
that is not a closing delimiter, until the matching closing token; it fails
if end of input arrives first or a foreign closing delimiter appears at
depth zero.  The source attaches the very same recovery twice in a row
(expression_parser.rs lines 50 to 62); since recovery is deterministic and
runs from the same position, the second attempt can never differ from the
first, and the model folds them into one.
-/

namespace DF

/-- Token type consumed by the expression grammar, following the tokens the
parser matches on (the lexer itself is outside the analysed sources; the
float payload is kept opaque as a string since the parser never inspects
it). -/
inductive Token where
  | Ident (s : String)
  | Integer (n : ℤ)
  | Float (s : String)
  | True
  | False
  | LiteralString (s : String)
  | Span (s e : Nat)
  | QuestionMark
  | Lparen
  | Rparen
  | Lbracket
  | Rbracket
  | Comma
  | Period
  | Mul
  | Div
  | Add
  | Sub
  | And
  | Or
  | Xor
  | Eq
  | Neq
  | Gt
  | Lt
  | Newline
  deriving DecidableEq

/-- Result of running a parser at a position: success with value and next
position, parse failure (no consumption observable to the caller), or fuel
exhaustion. -/
inductive PRes (α : Type) where
  | ok (val : α) (next : Nat)
  | fail
  | out
  deriving DecidableEq

/-- Spanned values, as in convenience_types: a value paired with its
half-open source span (start, end). -/
abbrev Spanned (α : Type) : Type := α × Nat × Nat

namespace ast

/-- Arithmetic operators of crate::ast::MathOp. -/
inductive MathOp where
  | Add | Sub | Mul | Div
  deriving DecidableEq

/-- Logical operators of crate::ast::BinaryOp. -/
inductive BinaryOp where
  | And | Or | Xor
  deriving DecidableEq

/-- Comparison operators of crate::ast::ComparisonOp. -/
inductive ComparisonOp where
  | Eq | Neq | Gt | Lt
  deriving DecidableEq

/-- Numbers of crate::ast::Number (the float payload kept opaque). -/
inductive Number where
  | Int (n : ℤ)
  | Float (s : String)
  deriving DecidableEq

/-- Value payload of crate::ast::Value, with the recursive occurrence of
Expression turned into a type parameter (Lean's kernel does not accept the
mutual nesting directly); ast.Value below instantiates it back, so
ast.Value matches the source type constructor for constructor. -/
inductive ValueF (α : Type) : Type where
  | Number (n : ast.Number)
  | Bool (b : Bool)
  | String (s : String)
  | Span (s e : Nat)
  | Option (e : α)
  deriving DecidableEq

/-- Expression AST of crate::ast::Expression restricted to the variants the
expression grammar emits; recursive children carry their spans exactly like
the Rust Box of Spanned of Expression fields. -/
inductive Expression : Type where
  | Ident (name : String)
  | Value (v : ValueF Expression)
  | FunctionCall (callee : Expression × Nat × Nat) (args : List (Expression × Nat × Nat))
  | MethodCall (receiver : Expression × Nat × Nat) (name : String)
      (args : List (Expression × Nat × Nat))
  | MathOp (lhs : Expression × Nat × Nat) (op : ast.MathOp) (rhs : Expression × Nat × Nat)
  | Binary (lhs : Expression × Nat × Nat) (op : ast.BinaryOp) (rhs : Expression × Nat × Nat)
  | Comparison (lhs : Expression × Nat × Nat) (op : ast.ComparisonOp)
      (rhs : Expression × Nat × Nat)
  | ParserError

/-- Value type of crate::ast::Value. -/
abbrev Value : Type := ValueF Expression

end ast

/-- Modelled from the spec: convenience_parsers::separator is not among the
provided sources.  Section 4.5 of the specification says every list element
is optionally followed by a separator token sequence used to permit embedded
newlines inside argument lists, and section 3 names Newline the line
separator marker, so separator consumes zero or more Newline tokens and
always succeeds.  The fuel bounds the number of newlines skipped; callers
always pass fuel at least the remaining input length. -/
def separator (toks : List Token) : Nat → Nat → Nat
  | 0, pos => pos
  | f + 1, pos =>
    match toks[pos]? with
    | some .Newline => separator toks f (pos + 1)
    | _ => pos

/-- Skip scan of chumsky's nested_delimiters(Lparen, Rparen,
[(Lbracket, Rbracket)], fallback) recovery parser, entered after the
opening token was consumed: repeatedly match either a properly nested
delimited block of one of the two bracket kinds or any single token that is
not a closing bracket, until the expected closing token is found; fail on a
foreign closing bracket at depth zero or at end of input.  A nested block
attempt that fails falls back to treating its opening token as a plain
skipped token, exactly like the ordered choice in chumsky's
implementation. -/
def nestedDelims (toks : List Token) : Nat → Token → Nat → PRes Unit
  | 0, _, _ => .out
  | g + 1, close, pos =>
    match toks[pos]? with
    | none => .fail
    | some t =>
      if t = close then .ok () (pos + 1)
      else if t = .Rparen ∨ t = .Rbracket then .fail
      else if t = .Lparen then
        match nestedDelims toks g .Rparen (pos + 1) with
        | .ok _ q => nestedDelims toks g close q
        | .fail => nestedDelims toks g close (pos + 1)
        | .out => .out
      else if t = .Lbracket then
        match nestedDelims toks g .Rbracket (pos + 1) with
        | .ok _ q => nestedDelims toks g close q
        | .fail => nestedDelims toks g close (pos + 1)
        | .out => .out
      else nestedDelims toks g close (pos + 1)

/-- Ordered choice on results, the shape chumsky's or and choice reduce to
once each alternative is a function of the same start position: keep the
first alternative unless it failed. -/
def por {α : Type} (a b : PRes α) : PRes α :=
  match a with
  | .fail => b
  | x => x

/-- Leaf dispatch of the atom: choice((ident.map(Ident), number, bool,
string, span)) from expression_parser.rs lines 20 to 39; the five select
patterns are disjoint, so the ordered choice is a single match on the
current token. -/
def atomHead (toks : List Token) (pos : Nat) : PRes ast.Expression :=
  match toks[pos]? with
  | some (.Ident s) => .ok (.Ident s) (pos + 1)
  | some (.Integer n) => .ok (.Value (.Number (.Int n))) (pos + 1)
  | some (.Float s) => .ok (.Value (.Number (.Float s))) (pos + 1)
  | some .True => .ok (.Value (.Bool true)) (pos + 1)
  | some .False => .ok (.Value (.Bool false)) (pos + 1)
  | some (.LiteralString s) => .ok (.Value (.String s)) (pos + 1)
  | some (.Span s e) => .ok (.Value (.Span s e)) (pos + 1)
  | _ => .fail

/-- First atom alternative, expression_parser.rs lines 39 to 43: a literal
or identifier, then an optional QuestionMark, mapped with the consumed
span.  The source closure binds the captured optional but never uses it and
wraps the head in Value(Option(..)) unconditionally; the model reproduces
that faithfully. -/
def atomOpt (toks : List Token) (pos : Nat) : PRes (Spanned ast.Expression) :=
  match atomHead toks pos with
  | .ok e p1 =>
    match toks[p1]? with
    | some .QuestionMark => .ok (.Value (.Option e), pos, p1 + 1) (p1 + 1)
    | _ => .ok (.Value (.Option e), pos, p1) p1
  | .fail => .fail
  | .out => .out

/-- Second atom alternative, expression_parser.rs lines 46 to 48: a full
expression between Lparen and Rparen; delimited_by keeps the inner result
and hence the inner span. -/
def atomParen (expression : List Token → Nat → PRes (Spanned ast.Expression))
    (toks : List Token) (pos : Nat) : PRes (Spanned ast.Expression) :=
  match toks[pos]? with
  | some .Lparen =>
    match expression toks (pos + 1) with
    | .ok e q =>
      match toks[q]? with
      | some .Rparen => .ok e (q + 1)
      | _ => .fail
    | .fail => .fail
    | .out => .out
  | _ => .fail

/-- Recovery attempt shared by atom, list and the block alternative: the
via_parser(nested_delimiters(Lparen, Rparen, [(Lbracket, Rbracket)], ..))
strategy, which requires an Lparen at the failure position and scans to its
matching Rparen; on success it reports the recovered region as a span. -/
def recoverDelim (f : Nat) (toks : List Token) (pos : Nat) : PRes (Nat × Nat) :=
  match toks[pos]? with
  | some .Lparen =>
    match nestedDelims toks f .Rparen (pos + 1) with
    | .ok _ q => .ok (pos, q) q
    | .fail => .fail
    | .out => .out
  | _ => .fail

/-- Atom parser, expression_parser.rs lines 39 to 63: the optional-suffix
alternative, or else a parenthesised sub-expression, or else the
bracket-balancing recovery substituting a ParserError node over the
recovered span.  The expression argument is the recursive closure parameter
of chumsky's recursive combinator. -/
def atom (expression : List Token → Nat → PRes (Spanned ast.Expression)) (f : Nat)
    (toks : List Token) (pos : Nat) : PRes (Spanned ast.Expression) :=
  por (por (atomOpt toks pos) (atomParen expression toks pos))
    (match recoverDelim f toks pos with
     | .ok sp q => .ok (.ParserError, sp.1, sp.2) q
     | .fail => .fail
     | .out => .out)

/-- Iteration of the comma-separated list collector: separated_by(Comma)
with allow_trailing, each element being expression.then_ignore(separator),
expression_parser.rs lines 66 to 72.  A comma whose following element fails
to parse is the permitted trailing comma and ends the repetition. -/
def itemsAux (expression : List Token → Nat → PRes (Spanned ast.Expression))
    (toks : List Token) (sf : Nat) :
    Nat → List (Spanned ast.Expression) → Nat → PRes (List (Spanned ast.Expression))
  | 0, _, _ => .out
  | g + 1, acc, pos =>
    match toks[pos]? with
    | some .Comma =>
      match expression toks (pos + 1) with
      | .ok e p1 => itemsAux expression toks sf g (acc ++ [e]) (separator toks sf p1)
      | .fail => .ok acc (pos + 1)
      | .out => .out
    | _ => .ok acc pos

/-- List of expressions, expression_parser.rs lines 66 to 72: zero or more
expressions separated by commas, trailing comma allowed, each element
followed by an ignored separator. -/
def items (expression : List Token → Nat → PRes (Spanned ast.Expression)) (f : Nat)
    (toks : List Token) (pos : Nat) : PRes (List (Spanned ast.Expression)) :=
  match expression toks pos with
  | .out => .out
  | .fail => .ok [] pos
  | .ok e p1 => itemsAux expression toks f f [e] (separator toks f p1)

/-- Parenthesised list of expressions, expression_parser.rs lines 75 to 84:
items delimited by Lparen and Rparen, recovering with nested_delimiters to
a one-element ParserError list. -/
def list (expression : List Token → Nat → PRes (Spanned ast.Expression)) (f : Nat)
    (toks : List Token) (pos : Nat) : PRes (List (Spanned ast.Expression)) :=
  por
    (match toks[pos]? with
     | some .Lparen =>
       match items expression f toks (pos + 1) with
       | .ok xs q =>
         match toks[q]? with
         | some .Rparen => .ok xs (q + 1)
         | _ => .fail
       | .fail => .fail
       | .out => .out
     | _ => .fail)
    (match recoverDelim f toks pos with
     | .ok sp q => .ok [(.ParserError, sp.1, sp.2)] q
     | .fail => .fail
     | .out => .out)

/-- Fold step of the call layer, expression_parser.rs lines 87 to 98: fold
juxtaposed argument lists onto the callee, building FunctionCall nodes
whose span runs from the callee start to the end of the argument list
(which includes the closing bracket). -/
def callAux (expression : List Token → Nat → PRes (Spanned ast.Expression))
    (toks : List Token) (lf : Nat) :
    Nat → Spanned ast.Expression → Nat → PRes (Spanned ast.Expression)
  | 0, _, _ => .out
  | g + 1, func, pos =>
    match list expression lf toks pos with
    | .fail => .ok func pos
    | .out => .out
    | .ok args q => callAux expression toks lf g (.FunctionCall func args, func.2.1, q) q

/-- Call layer, expression_parser.rs lines 87 to 98: an atom with zero or
more directly following argument lists folded on from the left. -/
def call (expression : List Token → Nat → PRes (Spanned ast.Expression)) (f : Nat)
    (toks : List Token) (pos : Nat) : PRes (Spanned ast.Expression) :=
  match atom expression f toks pos with
  | .ok a p => callAux expression toks f f a p
  | .fail => .fail
  | .out => .out

/-- Method-call layer, expression_parser.rs lines 100 to 120: an atom or a
call, an ignored separator, a Period, a method name, and an optional
argument list defaulting to the empty list, mapped with the whole consumed
span.  The choice((atom, call)) commits to atom whenever atom succeeds, and
exactly one Period-name suffix is consumed. -/
def method_call (expression : List Token → Nat → PRes (Spanned ast.Expression)) (f : Nat)
    (toks : List Token) (pos : Nat) : PRes (Spanned ast.Expression) :=
  match por (atom expression f toks pos) (call expression f toks pos) with
  | .ok recv p1 =>
    match toks[separator toks f p1]? with
    | some .Period =>
      match toks[separator toks f p1 + 1]? with
      | some (.Ident name) =>
        match list expression f toks (separator toks f p1 + 2) with
        | .ok args q => .ok (.MethodCall recv name args, pos, q) q
        | .fail =>
          .ok (.MethodCall recv name [], pos, separator toks f p1 + 2)
            (separator toks f p1 + 2)
        | .out => .out
      | _ => .fail
    | _ => .fail
  | .fail => .fail
  | .out => .out

/-- Operator-then-operand step of the product fold, expression_parser.rs
lines 123 to 128: a Mul or Div token followed by a call term. -/
def prodStep (expression : List Token → Nat → PRes (Spanned ast.Expression)) (f : Nat)
    (toks : List Token) (pos : Nat) : PRes (ast.MathOp × Spanned ast.Expression) :=
  match toks[pos]? with
  | some .Mul =>
    match call expression f toks (pos + 1) with
    | .ok b q => .ok (.Mul, b) q
    | .fail => .fail
    | .out => .out
  | some .Div =>
    match call expression f toks (pos + 1) with
    | .ok b q => .ok (.Div, b) q
    | .fail => .fail
    | .out => .out
  | _ => .fail

/-- Left fold of MathOp nodes shared by the product and sum layers,
expression_parser.rs lines 126 to 134 and 141 to 149: while the step parser
matches, combine accumulator and operand into a MathOp spanning from the
accumulator start to the operand end. -/
def mathAux (step : Nat → PRes (ast.MathOp × Spanned ast.Expression)) :
    Nat → Spanned ast.Expression → Nat → PRes (Spanned ast.Expression)
  | 0, _, _ => .out
  | g + 1, a, pos =>
    match step pos with
    | .fail => .ok a pos
    | .out => .out
    | .ok (op, b) q => mathAux step g (.MathOp a op b, a.2.1, b.2.2) q

/-- Product layer, expression_parser.rs lines 122 to 135: a method call or
call term with Mul and Div steps folded on from the left. -/
def product (expression : List Token → Nat → PRes (Spanned ast.Expression)) (f : Nat)
    (toks : List Token) (pos : Nat) : PRes (Spanned ast.Expression) :=
  match por (method_call expression f toks pos) (call expression f toks pos) with
  | .ok a p => mathAux (prodStep expression f toks) f a p
  | .fail => .fail
  | .out => .out

/-- Operator-then-operand step of the sum fold, expression_parser.rs lines
138 to 143: an Add or Sub token followed by a product term. -/
def sumStep (expression : List Token → Nat → PRes (Spanned ast.Expression)) (f : Nat)
    (toks : List Token) (pos : Nat) : PRes (ast.MathOp × Spanned ast.Expression) :=
  match toks[pos]? with
  | some .Add =>
    match product expression f toks (pos + 1) with
    | .ok b q => .ok (.Add, b) q
    | .fail => .fail
    | .out => .out
  | some .Sub =>
    match product expression f toks (pos + 1) with
    | .ok b q => .ok (.Sub, b) q
    | .fail => .fail
    | .out => .out
  | _ => .fail

/-- Sum layer, expression_parser.rs lines 137 to 150: a product with Add
and Sub steps folded on from the left. -/
def sum (expression : List Token → Nat → PRes (Spanned ast.Expression)) (f : Nat)
    (toks : List Token) (pos : Nat) : PRes (Spanned ast.Expression) :=
  match product expression f toks pos with
  | .ok a p => mathAux (sumStep expression f toks) f a p
  | .fail => .fail
  | .out => .out

/-- Operator-then-operand step of the logical fold, expression_parser.rs
lines 153 to 159: an And, Or or Xor token followed by a sum term. -/
def logStep (expression : List Token → Nat → PRes (Spanned ast.Expression)) (f : Nat)
    (toks : List Token) (pos : Nat) : PRes (ast.BinaryOp × Spanned ast.Expression) :=
  match toks[pos]? with
  | some .And =>
    match sum expression f toks (pos + 1) with
    | .ok b q => .ok (.And, b) q
    | .fail => .fail
    | .out => .out
  | some .Or =>
    match sum expression f toks (pos + 1) with
    | .ok b q => .ok (.Or, b) q
    | .fail => .fail
    | .out => .out
  | some .Xor =>
    match sum expression f toks (pos + 1) with
    | .ok b q => .ok (.Xor, b) q
    | .fail => .fail
    | .out => .out
  | _ => .fail

/-- Left fold of Binary nodes for the logical layer, expression_parser.rs
lines 158 to 164. -/
def logicalAux (step : Nat → PRes (ast.BinaryOp × Spanned ast.Expression)) :
    Nat → Spanned ast.Expression → Nat → PRes (Spanned ast.Expression)
  | 0, _, _ => .out
  | g + 1, a, pos =>
    match step pos with
    | .fail => .ok a pos
    | .out => .out
    | .ok (op, b) q => logicalAux step g (.Binary a op b, a.2.1, b.2.2) q

/-- Logical layer, expression_parser.rs lines 152 to 165: a sum with And,
Or and Xor steps, all at one precedence level, folded on from the left. -/
def logical (expression : List Token → Nat → PRes (Spanned ast.Expression)) (f : Nat)
    (toks : List Token) (pos : Nat) : PRes (Spanned ast.Expression) :=
  match sum expression f toks pos with
  | .ok a p => logicalAux (logStep expression f toks) f a p
  | .fail => .fail
  | .out => .out

/-- Operator-then-operand step of the comparison fold, expression_parser.rs
lines 168 to 175: an Eq, Neq, Gt or Lt token followed by a logical term. -/
def compStep (expression : List Token → Nat → PRes (Spanned ast.Expression)) (f : Nat)
    (toks : List Token) (pos : Nat) : PRes (ast.ComparisonOp × Spanned ast.Expression) :=
  match toks[pos]? with
  | some .Eq =>
    match logical expression f toks (pos + 1) with
    | .ok b q => .ok (.Eq, b) q
    | .fail => .fail
    | .out => .out
  | some .Neq =>
    match logical expression f toks (pos + 1) with
    | .ok b q => .ok (.Neq, b) q
    | .fail => .fail
    | .out => .out
  | some .Gt =>
    match logical expression f toks (pos + 1) with
    | .ok b q => .ok (.Gt, b) q
    | .fail => .fail
    | .out => .out
  | some .Lt =>
    match logical expression f toks (pos + 1) with
    | .ok b q => .ok (.Lt, b) q
    | .fail => .fail
    | .out => .out
  | _ => .fail

/-- Left fold of Comparison nodes for the comparison layer,
expression_parser.rs lines 174 to 183. -/
def compAux (step : Nat → PRes (ast.ComparisonOp × Spanned ast.Expression)) :
    Nat → Spanned ast.Expression → Nat → PRes (Spanned ast.Expression)
  | 0, _, _ => .out
  | g + 1, a, pos =>
    match step pos with
    | .fail => .ok a pos
    | .out => .out
    | .ok (op, b) q => compAux step g (.Comparison a op b, a.2.1, b.2.2) q

/-- Comparison layer, expression_parser.rs lines 167 to 184: a logical term
with Eq, Neq, Gt and Lt steps, all at one precedence level, folded on from
the left; this is also the whole inline expression. -/
def comp (expression : List Token → Nat → PRes (Spanned ast.Expression)) (f : Nat)
    (toks : List Token) (pos : Nat) : PRes (Spanned ast.Expression) :=
  match logical expression f toks pos with
  | .ok a p => compAux (compStep expression f toks) f a p
  | .fail => .fail
  | .out => .out

/-- Modelled from the spec: the block grammar is the construction-time
parameter of expression_parser (the composition seam of section 4.7); the
statement and item parsers that would instantiate it are not among the
provided sources, so the seam is instantiated with the always-failing
parser and the block alternative of expression_parser.rs lines 189 to 198
degenerates to its recovery: a balanced Lparen-Rparen region yields a
ParserError node, anything else fails. -/
def blockB (f : Nat) (toks : List Token) (pos : Nat) : PRes (Spanned ast.Expression) :=
  match recoverDelim f toks pos with
  | .ok sp q => .ok (.ParserError, sp.1, sp.2) q
  | .fail => .fail
  | .out => .out

/-- Recursive knot of expression_parser.rs line 36: the expression parser
is the ordered choice of the delimited block alternative and the inline
expression ladder, with the recursive occurrences inside atom and items
referring back to the whole choice.  Fuel decreases by one at each
unfolding; the liveness theorems show fuel (input length + 1) suffices. -/
def expressionP : Nat → List Token → Nat → PRes (Spanned ast.Expression)
  | 0, _, _ => .out
  | g + 1, toks, pos =>
    por (blockB g toks pos) (comp (expressionP g) g toks pos)

/-- Modelled from the spec: parse_from_lex in parser.rs runs the assembled
program grammar, whose statement layer is not among the provided sources;
section 6 of the specification gives the expression-level contract
parse_expression(tokens) returning an optional spanned tree, and chumsky's
Parser::parse demands that the whole input be consumed.  The entry point is
therefore modelled as the expression grammar over the full token sequence
with the canonical sufficient fuel, returning a tree exactly when the parse
succeeds and consumed every token.  Diagnostics are not modelled. -/
def parse_from_lex (toks : List Token) : Option (Spanned ast.Expression) :=
  match expressionP (toks.length + 1) toks 0 with
  | .ok e q => if q = toks.length then some e else none
  | _ => none

/-- Spans of the immediate children of a node, in order: the child
expressions boxed in the node (callee and arguments, receiver and
arguments, or the two operands). -/
def childSpans : ast.Expression → List (Nat × Nat)
  | .FunctionCall c args => c.2 :: args.map (fun x => x.2)
  | .MethodCall r _ args => r.2 :: args.map (fun x => x.2)
  | .MathOp a _ b => [a.2, b.2]
  | .Binary a _ b => [a.2, b.2]
  | .Comparison a _ b => [a.2, b.2]
  | _ => []

/-- Union of a sequence of spans in the sense of the specification: from
the start of the first to the end of the last, none when there are no
children. -/
def hull : List (Nat × Nat) → Option (Nat × Nat)
  | [] => none
  | x :: xs => some (x.1, ((x :: xs).getLast (by simp)).2)

/-- Well-formedness of node spans over an input of n tokens: the span of a
node satisfies start ≤ end and end ≤ n, and the span of a composite node
contains the spans of all its children, recursively. -/
inductive SpanWF (n : Nat) : ast.Expression → Nat → Nat → Prop where
  | ident (name : String) (s t : Nat) (h1 : s ≤ t) (h2 : t ≤ n) :
      SpanWF n (.Ident name) s t
  | perr (s t : Nat) (h1 : s ≤ t) (h2 : t ≤ n) : SpanWF n .ParserError s t
  | vnum (x : ast.Number) (s t : Nat) (h1 : s ≤ t) (h2 : t ≤ n) :
      SpanWF n (.Value (.Number x)) s t
  | vbool (b : Bool) (s t : Nat) (h1 : s ≤ t) (h2 : t ≤ n) :
      SpanWF n (.Value (.Bool b)) s t
  | vstr (x : String) (s t : Nat) (h1 : s ≤ t) (h2 : t ≤ n) :
      SpanWF n (.Value (.String x)) s t
  | vspan (a b s t : Nat) (h1 : s ≤ t) (h2 : t ≤ n) :
      SpanWF n (.Value (.Span a b)) s t
  | vopt (e : ast.Expression) (s t : Nat) (h : SpanWF n e s t) :
      SpanWF n (.Value (.Option e)) s t
  | fc (c : Spanned ast.Expression) (args : List (Spanned ast.Expression)) (s t : Nat)
      (h1 : s ≤ t) (h2 : t ≤ n) (h3 : s ≤ c.2.1) (h4 : c.2.2 ≤ t)
      (h5 : SpanWF n c.1 c.2.1 c.2.2)
      (h6 : ∀ x ∈ args, s ≤ x.2.1 ∧ x.2.2 ≤ t)
      (h7 : ∀ x ∈ args, SpanWF n x.1 x.2.1 x.2.2) :
      SpanWF n (.FunctionCall c args) s t
  | mc (r : Spanned ast.Expression) (name : String)
      (args : List (Spanned ast.Expression)) (s t : Nat)
      (h1 : s ≤ t) (h2 : t ≤ n) (h3 : s ≤ r.2.1) (h4 : r.2.2 ≤ t)
      (h5 : SpanWF n r.1 r.2.1 r.2.2)
      (h6 : ∀ x ∈ args, s ≤ x.2.1 ∧ x.2.2 ≤ t)
      (h7 : ∀ x ∈ args, SpanWF n x.1 x.2.1 x.2.2) :
      SpanWF n (.MethodCall r name args) s t
  | math (a : Spanned ast.Expression) (op : ast.MathOp) (b : Spanned ast.Expression)
      (s t : Nat) (h1 : s ≤ t) (h2 : t ≤ n)
      (h3 : s ≤ a.2.1) (h4 : a.2.2 ≤ t) (h5 : s ≤ b.2.1) (h6 : b.2.2 ≤ t)
      (h7 : SpanWF n a.1 a.2.1 a.2.2) (h8 : SpanWF n b.1 b.2.1 b.2.2) :
      SpanWF n (.MathOp a op b) s t
  | bin (a : Spanned ast.Expression) (op : ast.BinaryOp) (b : Spanned ast.Expression)
      (s t : Nat) (h1 : s ≤ t) (h2 : t ≤ n)
      (h3 : s ≤ a.2.1) (h4 : a.2.2 ≤ t) (h5 : s ≤ b.2.1) (h6 : b.2.2 ≤ t)
      (h7 : SpanWF n a.1 a.2.1 a.2.2) (h8 : SpanWF n b.1 b.2.1 b.2.2) :
      SpanWF n (.Binary a op b) s t
  | cmp (a : Spanned ast.Expression) (op : ast.ComparisonOp) (b : Spanned ast.Expression)
      (s t : Nat) (h1 : s ≤ t) (h2 : t ≤ n)
      (h3 : s ≤ a.2.1) (h4 : a.2.2 ≤ t) (h5 : s ≤ b.2.1) (h6 : b.2.2 ≤ t)
      (h7 : SpanWF n a.1 a.2.1 a.2.2) (h8 : SpanWF n b.1 b.2.1 b.2.2) :
      SpanWF n (.Comparison a op b) s t

/-- Utility: a successful indexed lookup implies the index is in range. -/
theorem pos_lt_of_getElem? {toks : List Token} {pos : Nat} {t : Token}
    (h : toks[pos]? = some t) : pos < toks.length := by
  by_contra hc
  push_neg at hc
  rw [List.getElem?_eq_none hc] at h
  cases h

/-- Ordered choice analysed: a success of por comes from the first
alternative, or from the second after the first failed. -/
theorem por_ok {α : Type} {a b : PRes α} {v : α} {q : Nat} (h : por a b = .ok v q) :
    a = .ok v q ∨ (a = .fail ∧ b = .ok v q) := by
  cases a <;> simp_all [por]

/-- Ordered choice analysed: fuel exhaustion of por comes from either
alternative. -/
theorem por_out {α : Type} {a b : PRes α} (h : por a b = .out) :
    a = .out ∨ (a = .fail ∧ b = .out) := by
  cases a <;> simp_all [por]

/-- Separator only moves forward. -/
theorem sep_ge (toks : List Token) : ∀ f pos, pos ≤ separator toks f pos := by
  intro f
  induction f with
  | zero => intro pos; simp [separator]
  | succ g ih =>
    intro pos
    rw [separator]
    split
    · exact le_trans (by omega) (ih (pos + 1))
    · exact le_rfl

/-- Separator stays within the input bounds. -/
theorem sep_le (toks : List Token) :
    ∀ f pos, pos ≤ toks.length → separator toks f pos ≤ toks.length := by
  intro f
  induction f with
  | zero => intro pos h; simpa [separator] using h
  | succ g ih =>
    intro pos h
    rw [separator]
    split
    · rename_i hg
      exact ih (pos + 1) (pos_lt_of_getElem? hg)
    · exact h

/-- Success of the nested-delimiter scan: the scan moved strictly forward,
stayed in bounds, and stopped right after an occurrence of the expected
closing token (the matching close at depth zero). -/
theorem nd_ok (toks : List Token) :
    ∀ f close pos q, nestedDelims toks f close pos = .ok () q →
      pos < q ∧ (pos ≤ toks.length → q ≤ toks.length) ∧ toks[q - 1]? = some close := by
  intro f
  induction f with
  | zero => intro close pos q h; exact absurd h (by simp [nestedDelims])
  | succ g ih =>
    intro close pos q h
    rw [nestedDelims] at h
    split at h
    · cases h
    · rename_i t hg
      have hlt : pos < toks.length := pos_lt_of_getElem? hg
      split at h
      · rename_i hc
        cases h
        refine ⟨by omega, by omega, ?_⟩
        simpa [hc] using hg
      · split at h
        · cases h
        · split at h
          · split at h
            · rename_i u q' hn
              have h5 := ih .Rparen (pos + 1) q' hn
              have h6 := ih close q' q h
              exact ⟨by omega, by omega, h6.2.2⟩
            · rename_i hn
              have h6 := ih close (pos + 1) q h
              exact ⟨by omega, by omega, h6.2.2⟩
            · cases h
          · split at h
            · split at h
              · rename_i u q' hn
                have h5 := ih .Rbracket (pos + 1) q' hn
                have h6 := ih close q' q h
                exact ⟨by omega, by omega, h6.2.2⟩
              · rename_i hn
                have h6 := ih close (pos + 1) q h
                exact ⟨by omega, by omega, h6.2.2⟩
              · cases h
            · have h6 := ih close (pos + 1) q h
              exact ⟨by omega, by omega, h6.2.2⟩

/-- Liveness of the nested-delimiter scan: with fuel exceeding the
remaining input it cannot run out, because every iteration consumes at
least one token. -/
theorem nd_noout (toks : List Token) :
    ∀ f close pos, toks.length < f + pos → pos ≤ toks.length →
      nestedDelims toks f close pos ≠ .out := by
  intro f
  induction f with
  | zero => intro close pos h1 h2; omega
  | succ g ih =>
    intro close pos h1 h2 hout
    rw [nestedDelims] at hout
    split at hout
    · cases hout
    · rename_i t hg
      have hlt : pos < toks.length := pos_lt_of_getElem? hg
      split at hout
      · cases hout
      · split at hout
        · cases hout
        · split at hout
          · split at hout
            · rename_i u q' hn
              have h6 := nd_ok toks g .Rparen (pos + 1) q' hn
              exact ih close q' (by omega) (by omega) hout
            · exact ih close (pos + 1) (by omega) (by omega) hout
            · rename_i hn
              exact ih .Rparen (pos + 1) (by omega) (by omega) hn
          · split at hout
            · split at hout
              · rename_i u q' hn
                have h6 := nd_ok toks g .Rbracket (pos + 1) q' hn
                exact ih close q' (by omega) (by omega) hout
              · exact ih close (pos + 1) (by omega) (by omega) hout
              · rename_i hn
                exact ih .Rbracket (pos + 1) (by omega) (by omega) hn
            · exact ih close (pos + 1) (by omega) (by omega) hout

/-- Success of the shared recovery attempt: the recovered span runs from
the failure position, where an opening Lparen sits, to just after the
matching Rparen at depth zero, within bounds. -/
theorem recoverDelim_ok {f : Nat} {toks : List Token} {pos : Nat} {sp : Nat × Nat} {q : Nat}
    (h : recoverDelim f toks pos = .ok sp q) :
    sp.1 = pos ∧ sp.2 = q ∧ pos < q ∧ q ≤ toks.length ∧
      toks[pos]? = some .Lparen ∧ toks[q - 1]? = some .Rparen := by
  unfold recoverDelim at h
  split at h
  · rename_i hg
    split at h
    · rename_i u q' hn
      have h2 := nd_ok toks f .Rparen (pos + 1) q' hn
      cases h
      have hlt : pos < toks.length := pos_lt_of_getElem? hg
      exact ⟨rfl, rfl, by omega, by omega, hg, h2.2.2⟩
    · cases h
    · cases h
  · cases h

/-- Liveness of the shared recovery attempt. -/
theorem recoverDelim_noout {f : Nat} {toks : List Token} {pos : Nat}
    (h1 : toks.length ≤ f + pos) :
    recoverDelim f toks pos ≠ .out := by
  intro hout
  unfold recoverDelim at hout
  split at hout
  · rename_i hg
    have hlt : pos < toks.length := pos_lt_of_getElem? hg
    split at hout
    · cases hout
    · cases hout
    · rename_i hn
      exact nd_noout toks f .Rparen (pos + 1) (by omega) (by omega) hn
  · cases hout

/-- Leaf results of atomHead: one token was consumed and the produced
expression is a leaf, well spanned for any admissible span. -/
theorem atomHead_ok {toks : List Token} {pos : Nat} {e : ast.Expression} {p : Nat}
    (h : atomHead toks pos = .ok e p) :
    p = pos + 1 ∧ pos < toks.length ∧
      ∀ n s t, s ≤ t → t ≤ n → SpanWF n e s t := by
  unfold atomHead at h
  split at h
  · rename_i x hg
    cases h
    exact ⟨rfl, pos_lt_of_getElem? hg, fun n s t h1 h2 => SpanWF.ident _ _ _ h1 h2⟩
  · rename_i x hg
    cases h
    exact ⟨rfl, pos_lt_of_getElem? hg, fun n s t h1 h2 => SpanWF.vnum _ _ _ h1 h2⟩
  · rename_i x hg
    cases h
    exact ⟨rfl, pos_lt_of_getElem? hg, fun n s t h1 h2 => SpanWF.vnum _ _ _ h1 h2⟩
  · rename_i hg
    cases h
    exact ⟨rfl, pos_lt_of_getElem? hg, fun n s t h1 h2 => SpanWF.vbool _ _ _ h1 h2⟩
  · rename_i hg
    cases h
    exact ⟨rfl, pos_lt_of_getElem? hg, fun n s t h1 h2 => SpanWF.vbool _ _ _ h1 h2⟩
  · rename_i x hg
    cases h
    exact ⟨rfl, pos_lt_of_getElem? hg, fun n s t h1 h2 => SpanWF.vstr _ _ _ h1 h2⟩
  · rename_i x y hg
    cases h
    exact ⟨rfl, pos_lt_of_getElem? hg, fun n s t h1 h2 => SpanWF.vspan _ _ _ _ h1 h2⟩
  · cases h

/-- Post-condition bundle for an expression parser over a fixed input:
success strictly advances the position, stays within the input bounds, and
the produced span lies between the start and end positions and carries a
well-formed tree. -/
def PB (toks : List Token) (p : Nat → PRes (Spanned ast.Expression)) : Prop :=
  ∀ pos r q, p pos = .ok r q →
    pos < q ∧ (pos ≤ toks.length → q ≤ toks.length) ∧
    pos ≤ r.2.1 ∧ r.2.1 ≤ r.2.2 ∧ r.2.2 ≤ q ∧
    (pos ≤ toks.length → SpanWF toks.length r.1 r.2.1 r.2.2)

/-- Post-condition bundle for the delimited list parser: success strictly
advances and every produced element is well spanned within the consumed
region. -/
def PBL (toks : List Token) (p : Nat → PRes (List (Spanned ast.Expression))) : Prop :=
  ∀ pos xs q, p pos = .ok xs q →
    pos < q ∧ (pos ≤ toks.length → q ≤ toks.length) ∧
    ∀ x ∈ xs, pos ≤ x.2.1 ∧ x.2.1 ≤ x.2.2 ∧ x.2.2 ≤ q ∧
      (pos ≤ toks.length → SpanWF toks.length x.1 x.2.1 x.2.2)

/-- Post-condition bundle for the bare item collector, which may succeed
without consuming anything. -/
def PBI (toks : List Token) (p : Nat → PRes (List (Spanned ast.Expression))) : Prop :=
  ∀ pos xs q, p pos = .ok xs q →
    pos ≤ q ∧ (pos ≤ toks.length → q ≤ toks.length) ∧
    ∀ x ∈ xs, pos ≤ x.2.1 ∧ x.2.1 ≤ x.2.2 ∧ x.2.2 ≤ q ∧
      (pos ≤ toks.length → SpanWF toks.length x.1 x.2.1 x.2.2)

/-- Bounds and spans for the optional-suffix atom alternative. -/
theorem atomOpt_pb (toks : List Token) : PB toks (atomOpt toks) := by
  intro pos r q h
  unfold atomOpt at h
  split at h
  · rename_i e0 p1 hhead
    obtain ⟨hp, hlt, hwf⟩ := atomHead_ok hhead
    subst hp
    split at h
    · rename_i hq
      have hlt2 : pos + 1 < toks.length := pos_lt_of_getElem? hq
      cases h
      exact ⟨by omega, fun _ => by omega, le_rfl, by show pos ≤ pos + 1 + 1; omega, le_rfl,
        fun hb => SpanWF.vopt _ _ _
          (hwf toks.length pos (pos + 1 + 1) (by omega) (by omega))⟩
    · cases h
      exact ⟨by omega, fun _ => by omega, le_rfl, by show pos ≤ pos + 1; omega, le_rfl,
        fun hb => SpanWF.vopt _ _ _
          (hwf toks.length pos (pos + 1) (by omega) (by omega))⟩
  · cases h
  · cases h

/-- Bounds and spans for the parenthesised atom alternative, assuming them
for the inner expression parser. -/
theorem atomParen_pb {exp : List Token → Nat → PRes (Spanned ast.Expression)}
    (toks : List Token) (hexp : PB toks (exp toks)) : PB toks (atomParen exp toks) := by
  intro pos r q h
  unfold atomParen at h
  split at h
  · rename_i hg
    have hlt : pos < toks.length := pos_lt_of_getElem? hg
    split at h
    · rename_i e0 q0 hin
      have he := hexp (pos + 1) e0 q0 hin
      split at h
      · rename_i hr
        have hlt2 : q0 < toks.length := pos_lt_of_getElem? hr
        cases h
        exact ⟨by omega, fun _ => by omega, by omega, he.2.2.2.1, by omega,
          fun hb => he.2.2.2.2.2 (by omega)⟩
      · cases h
    · cases h
    · cases h
  · cases h

/-- Bounds and spans for the whole atom layer. -/
theorem atom_pb {exp : List Token → Nat → PRes (Spanned ast.Expression)}
    (toks : List Token) (hexp : PB toks (exp toks)) (f : Nat) :
    PB toks (atom exp f toks) := by
  intro pos r q h
  unfold atom at h
  rcases por_ok h with h1 | ⟨h1, h2⟩
  · rcases por_ok h1 with h3 | ⟨h3, h4⟩
    · exact atomOpt_pb toks pos r q h3
    · exact atomParen_pb toks hexp pos r q h4
  · split at h2
    · rename_i sp q' hrec
      obtain ⟨hs1, hs2, hs3, hs4, hs5, hs6⟩ := recoverDelim_ok hrec
      cases h2
      exact ⟨by omega, fun _ => by omega, by show pos ≤ sp.1; omega,
        by show sp.1 ≤ sp.2; omega, by show sp.2 ≤ q; omega,
        fun hb => SpanWF.perr sp.1 sp.2 (by omega) (by omega)⟩
    · cases h2
    · cases h2

/-- Bounds and spans for the iterations of the comma-separated list
collector: every element added beyond the accumulator lies within the
region the iterations consumed. -/
theorem itemsAux_pb {exp : List Token → Nat → PRes (Spanned ast.Expression)}
    (toks : List Token) (hexp : PB toks (exp toks)) (sf : Nat) :
    ∀ f acc pos xs q, itemsAux exp toks sf f acc pos = .ok xs q →
      pos ≤ q ∧ (pos ≤ toks.length → q ≤ toks.length) ∧
      ∀ x ∈ xs, x ∈ acc ∨
        (pos ≤ x.2.1 ∧ x.2.1 ≤ x.2.2 ∧ x.2.2 ≤ q ∧
          (pos ≤ toks.length → SpanWF toks.length x.1 x.2.1 x.2.2)) := by
  intro f
  induction f with
  | zero => intro acc pos xs q h; exact absurd h (by simp [itemsAux])
  | succ g ih =>
    intro acc pos xs q h
    rw [itemsAux] at h
    split at h
    · rename_i hg
      have hlt : pos < toks.length := pos_lt_of_getElem? hg
      split at h
      · rename_i e p1 hel
        have he := hexp (pos + 1) e p1 hel
        have hp1 : p1 ≤ toks.length := he.2.1 (by omega)
        have hsep1 : p1 ≤ separator toks sf p1 := sep_ge toks sf p1
        have hsep2 : separator toks sf p1 ≤ toks.length := sep_le toks sf p1 hp1
        have hx := ih (acc ++ [e]) (separator toks sf p1) xs q h
        refine ⟨by omega, fun _ => hx.2.1 (by omega), ?_⟩
        intro x hxx
        rcases hx.2.2 x hxx with hin | hnew
        · rcases List.mem_append.mp hin with hina | hinb
          · exact Or.inl hina
          · have hxe : x = e := by simpa using hinb
            subst hxe
            right
            exact ⟨by omega, he.2.2.2.1, by omega, fun hb => he.2.2.2.2.2 (by omega)⟩
        · right
          exact ⟨by omega, hnew.2.1, by omega, fun hb => hnew.2.2.2 (by omega)⟩
      · cases h
        exact ⟨by omega, fun _ => by omega, fun x hxx => Or.inl hxx⟩
      · cases h
    · cases h
      exact ⟨le_rfl, fun hb => hb, fun x hxx => Or.inl hxx⟩

/-- Bounds and spans for the item collector. -/
theorem items_pb {exp : List Token → Nat → PRes (Spanned ast.Expression)}
    (toks : List Token) (hexp : PB toks (exp toks)) (f : Nat) :
    PBI toks (items exp f toks) := by
  intro pos xs q h
  unfold items at h
  split at h
  · cases h
  · cases h
    exact ⟨le_rfl, fun hb => hb, by simp⟩
  · rename_i e p1 hel
    have he := hexp pos e p1 hel
    have hsep1 : p1 ≤ separator toks f p1 := sep_ge toks f p1
    have hx := itemsAux_pb toks hexp f f [e] (separator toks f p1) xs q h
    have hq : separator toks f p1 ≤ q := hx.1
    constructor
    · omega
    constructor
    · intro hb
      have hp1 : p1 ≤ toks.length := he.2.1 hb
      exact hx.2.1 (sep_le toks f p1 hp1)
    · intro x hxx
      rcases hx.2.2 x hxx with hin | hnew
      · have hxe : x = e := by simpa using hin
        rw [hxe]
        exact ⟨by omega, he.2.2.2.1, by omega, fun hb => he.2.2.2.2.2 hb⟩
      · refine ⟨by omega, hnew.2.1, by omega, fun hb => ?_⟩
        have hp1 : p1 ≤ toks.length := he.2.1 hb
        exact hnew.2.2.2 (sep_le toks f p1 hp1)

/-- Bounds and spans for the parenthesised list parser. -/
theorem list_pb {exp : List Token → Nat → PRes (Spanned ast.Expression)}
    (toks : List Token) (hexp : PB toks (exp toks)) (f : Nat) :
    PBL toks (list exp f toks) := by
  intro pos xs q h
  unfold list at h
  rcases por_ok h with h1 | ⟨h1, h2⟩
  · split at h1
    · rename_i hg
      have hlt : pos < toks.length := pos_lt_of_getElem? hg
      split at h1
      · rename_i xs0 q0 hit
        have hi := items_pb toks hexp f (pos + 1) xs0 q0 hit
        split at h1
        · rename_i hr
          have hlt2 : q0 < toks.length := pos_lt_of_getElem? hr
          cases h1
          refine ⟨by omega, fun _ => by omega, ?_⟩
          intro x hxx
          have hh := hi.2.2 x hxx
          exact ⟨by omega, hh.2.1, by omega, fun hb => hh.2.2.2 (by omega)⟩
        · cases h1
      · cases h1
      · cases h1
    · cases h1
  · split at h2
    · rename_i sp q' hrec
      obtain ⟨hs1, hs2, hs3, hs4, hs5, hs6⟩ := recoverDelim_ok hrec
      cases h2
      refine ⟨by omega, fun _ => by omega, ?_⟩
      intro x hxx
      have hxe : x = (.ParserError, sp.1, sp.2) := by simpa using hxx
      rw [hxe]
      exact ⟨by show pos ≤ sp.1; omega, by show sp.1 ≤ sp.2; omega,
        by show sp.2 ≤ q; omega,
        fun hb => SpanWF.perr sp.1 sp.2 (by omega) (by omega)⟩
    · cases h2
    · cases h2

/-- Bounds and spans for the function-call fold: starting from a callee
whose span ends at or before the current position, every fold result keeps
the callee's span start, and all spans stay well formed. -/
theorem callAux_pb {exp : List Token → Nat → PRes (Spanned ast.Expression)}
    (toks : List Token) (hexp : PB toks (exp toks)) (lf : Nat) :
    ∀ f func pos r q, callAux exp toks lf f func pos = .ok r q →
      func.2.1 ≤ func.2.2 → func.2.2 ≤ pos →
      (pos ≤ toks.length → SpanWF toks.length func.1 func.2.1 func.2.2) →
      pos ≤ q ∧ (pos ≤ toks.length → q ≤ toks.length) ∧
      r.2.1 = func.2.1 ∧ r.2.1 ≤ r.2.2 ∧ r.2.2 ≤ q ∧
      (pos ≤ toks.length → SpanWF toks.length r.1 r.2.1 r.2.2) := by
  intro f
  induction f with
  | zero => intro func pos r q h _ _ _; exact absurd h (by simp [callAux])
  | succ g ih =>
    intro func pos r q h h1 h2 h3
    rw [callAux] at h
    split at h
    · cases h
      exact ⟨le_rfl, fun hb => hb, rfl, h1, h2, h3⟩
    · cases h
    · rename_i args q' hlst
      have hl := list_pb toks hexp lf pos args q' hlst
      have hx := ih (.FunctionCall func args, func.2.1, q') q' r q h
        (by show func.2.1 ≤ q'; omega) (by show q' ≤ q'; omega)
        (fun hb => by
          refine SpanWF.fc func args func.2.1 q' (by omega) hb le_rfl (by omega)
            (h3 (by omega)) ?_ ?_
          · intro x hx
            have hh := hl.2.2 x hx
            exact ⟨by omega, by omega⟩
          · intro x hx
            exact (hl.2.2 x hx).2.2.2 (by omega))
      refine ⟨by omega, fun hb => hx.2.1 (hl.2.1 hb), hx.2.2.1, hx.2.2.2.1, hx.2.2.2.2.1,
        fun hb => hx.2.2.2.2.2 (hl.2.1 hb)⟩

/-- Bounds and spans for the call layer. -/
theorem call_pb {exp : List Token → Nat → PRes (Spanned ast.Expression)}
    (toks : List Token) (hexp : PB toks (exp toks)) (f : Nat) :
    PB toks (call exp f toks) := by
  intro pos r q h
  unfold call at h
  split at h
  · rename_i a p ha
    have hat := atom_pb toks hexp f pos a p ha
    have hx := callAux_pb toks hexp f f a p r q h hat.2.2.2.1 hat.2.2.2.2.1
      (fun hb => hat.2.2.2.2.2 (by omega))
    refine ⟨by omega, fun hb => hx.2.1 (hat.2.1 hb), by omega, hx.2.2.2.1, hx.2.2.2.2.1,
      fun hb => hx.2.2.2.2.2 (hat.2.1 hb)⟩
  · cases h
  · cases h

/-- Bounds and spans for the method-call layer. -/
theorem method_call_pb {exp : List Token → Nat → PRes (Spanned ast.Expression)}
    (toks : List Token) (hexp : PB toks (exp toks)) (f : Nat) :
    PB toks (method_call exp f toks) := by
  intro pos r q h
  unfold method_call at h
  split at h
  · rename_i recv p1 hh
    have hr : pos < p1 ∧ (pos ≤ toks.length → p1 ≤ toks.length) ∧
        pos ≤ recv.2.1 ∧ recv.2.1 ≤ recv.2.2 ∧ recv.2.2 ≤ p1 ∧
        (pos ≤ toks.length → SpanWF toks.length recv.1 recv.2.1 recv.2.2) := by
      rcases por_ok hh with hA | ⟨_, hC⟩
      · exact atom_pb toks hexp f pos recv p1 hA
      · exact call_pb toks hexp f pos recv p1 hC
    have hsep1 : p1 ≤ separator toks f p1 := sep_ge toks f p1
    split at h
    · rename_i hper
      have hlt1 : separator toks f p1 < toks.length := pos_lt_of_getElem? hper
      split at h
      · rename_i name hname
        have hlt2 : separator toks f p1 + 1 < toks.length := pos_lt_of_getElem? hname
        split at h
        · rename_i args q' hlst
          have hl := list_pb toks hexp f (separator toks f p1 + 2) args q' hlst
          cases h
          refine ⟨by omega, fun _ => hl.2.1 (by omega), le_rfl,
            by show pos ≤ q; omega, le_rfl, fun hb => ?_⟩
          refine SpanWF.mc recv name args pos q (by omega) (hl.2.1 (by omega))
            (by omega) (by omega) (hr.2.2.2.2.2 hb) ?_ ?_
          · intro x hx
            have hh := hl.2.2 x hx
            exact ⟨by omega, by omega⟩
          · intro x hx
            exact (hl.2.2 x hx).2.2.2 (by omega)
        · cases h
          refine ⟨by omega, fun _ => by omega, le_rfl,
            by show pos ≤ separator toks f p1 + 2; omega, le_rfl, fun hb => ?_⟩
          refine SpanWF.mc recv name [] pos (separator toks f p1 + 2) (by omega)
            (by omega) (by omega) (by omega) (hr.2.2.2.2.2 hb) ?_ ?_
          · intro x hx
            cases hx
          · intro x hx
            cases hx
        · cases h
      · cases h
    · cases h
  · cases h
  · cases h

/-- Post-condition bundle for an operator-then-operand fold step: success
consumes the operator token and a strictly advancing operand whose span
lies beyond the operator. -/
def PBStep {β : Type} (toks : List Token) (p : Nat → PRes (β × Spanned ast.Expression)) :
    Prop :=
  ∀ pos op b q, p pos = .ok (op, b) q →
    pos + 1 < q ∧ (pos ≤ toks.length → q ≤ toks.length) ∧
    pos < b.2.1 ∧ b.2.1 ≤ b.2.2 ∧ b.2.2 ≤ q ∧
    (pos ≤ toks.length → SpanWF toks.length b.1 b.2.1 b.2.2)

/-- Bounds and spans for the product fold step. -/
theorem prodStep_pb {exp : List Token → Nat → PRes (Spanned ast.Expression)}
    (toks : List Token) (hexp : PB toks (exp toks)) (f : Nat) :
    PBStep toks (prodStep exp f toks) := by
  intro pos op b q h
  unfold prodStep at h
  split at h
  · rename_i hg
    split at h
    · rename_i b0 q0 hc
      have hb := call_pb toks hexp f (pos + 1) b0 q0 hc
      have hlt : pos < toks.length := pos_lt_of_getElem? hg
      cases h
      exact ⟨by omega, fun _ => hb.2.1 (by omega), by omega, hb.2.2.2.1,
        hb.2.2.2.2.1, fun _ => hb.2.2.2.2.2 (by omega)⟩
    · cases h
    · cases h
  · rename_i hg
    split at h
    · rename_i b0 q0 hc
      have hb := call_pb toks hexp f (pos + 1) b0 q0 hc
      have hlt : pos < toks.length := pos_lt_of_getElem? hg
      cases h
      exact ⟨by omega, fun _ => hb.2.1 (by omega), by omega, hb.2.2.2.1,
        hb.2.2.2.2.1, fun _ => hb.2.2.2.2.2 (by omega)⟩
    · cases h
    · cases h
  · cases h

/-- Bounds and spans for the MathOp fold shared by product and sum. -/
theorem mathAux_pb {step : Nat → PRes (ast.MathOp × Spanned ast.Expression)}
    (toks : List Token) (hstep : PBStep toks step) :
    ∀ f a pos r q, mathAux step f a pos = .ok r q →
      a.2.1 ≤ a.2.2 → a.2.2 ≤ pos →
      (pos ≤ toks.length → SpanWF toks.length a.1 a.2.1 a.2.2) →
      pos ≤ q ∧ (pos ≤ toks.length → q ≤ toks.length) ∧
      r.2.1 = a.2.1 ∧ r.2.1 ≤ r.2.2 ∧ r.2.2 ≤ q ∧
      (pos ≤ toks.length → SpanWF toks.length r.1 r.2.1 r.2.2) := by
  intro f
  induction f with
  | zero => intro a pos r q h _ _ _; exact absurd h (by simp [mathAux])
  | succ g ih =>
    intro a pos r q h h1 h2 h3
    rw [mathAux] at h
    split at h
    · cases h
      exact ⟨le_rfl, fun hb => hb, rfl, h1, h2, h3⟩
    · cases h
    · rename_i op b q' hst
      have hs := hstep pos op b q' hst
      have hx := ih (.MathOp a op b, a.2.1, b.2.2) q' r q h
        (by show a.2.1 ≤ b.2.2; omega) (by show b.2.2 ≤ q'; omega)
        (fun hb => by
          exact SpanWF.math a op b a.2.1 b.2.2 (by omega) (by omega) le_rfl
            (by omega) (by omega) le_rfl (h3 (by omega)) (hs.2.2.2.2.2 (by omega)))
      refine ⟨by omega, fun hb => hx.2.1 (hs.2.1 hb), hx.2.2.1, hx.2.2.2.1,
        hx.2.2.2.2.1, fun hb => hx.2.2.2.2.2 (hs.2.1 hb)⟩

/-- Bounds and spans for the product layer. -/
theorem product_pb {exp : List Token → Nat → PRes (Spanned ast.Expression)}
    (toks : List Token) (hexp : PB toks (exp toks)) (f : Nat) :
    PB toks (product exp f toks) := by
  intro pos r q h
  unfold product at h
  split at h
  · rename_i a p hh
    have ha : pos < p ∧ (pos ≤ toks.length → p ≤ toks.length) ∧
        pos ≤ a.2.1 ∧ a.2.1 ≤ a.2.2 ∧ a.2.2 ≤ p ∧
        (pos ≤ toks.length → SpanWF toks.length a.1 a.2.1 a.2.2) := by
      rcases por_ok hh with hA | ⟨_, hC⟩
      · exact method_call_pb toks hexp f pos a p hA
      · exact call_pb toks hexp f pos a p hC
    have hx := mathAux_pb toks (prodStep_pb toks hexp f) f a p r q h
      ha.2.2.2.1 ha.2.2.2.2.1 (fun hb => ha.2.2.2.2.2 (by omega))
    refine ⟨by omega, fun hb => hx.2.1 (ha.2.1 hb), by omega, hx.2.2.2.1,
      hx.2.2.2.2.1, fun hb => hx.2.2.2.2.2 (ha.2.1 hb)⟩
  · cases h
  · cases h

/-- Bounds and spans for the sum fold step. -/
theorem sumStep_pb {exp : List Token → Nat → PRes (Spanned ast.Expression)}
    (toks : List Token) (hexp : PB toks (exp toks)) (f : Nat) :
    PBStep toks (sumStep exp f toks) := by
  intro pos op b q h
  unfold sumStep at h
  split at h
  · rename_i hg
    split at h
    · rename_i b0 q0 hc
      have hb := product_pb toks hexp f (pos + 1) b0 q0 hc
      have hlt : pos < toks.length := pos_lt_of_getElem? hg
      cases h
      exact ⟨by omega, fun _ => hb.2.1 (by omega), by omega, hb.2.2.2.1,
        hb.2.2.2.2.1, fun _ => hb.2.2.2.2.2 (by omega)⟩
    · cases h
    · cases h
  · rename_i hg
    split at h
    · rename_i b0 q0 hc
      have hb := product_pb toks hexp f (pos + 1) b0 q0 hc
      have hlt : pos < toks.length := pos_lt_of_getElem? hg
      cases h
      exact ⟨by omega, fun _ => hb.2.1 (by omega), by omega, hb.2.2.2.1,
        hb.2.2.2.2.1, fun _ => hb.2.2.2.2.2 (by omega)⟩
    · cases h
    · cases h
  · cases h

/-- Bounds and spans for the sum layer. -/
theorem sum_pb {exp : List Token → Nat → PRes (Spanned ast.Expression)}
    (toks : List Token) (hexp : PB toks (exp toks)) (f : Nat) :
    PB toks (sum exp f toks) := by
  intro pos r q h
  unfold sum at h
  split at h
  · rename_i a p hh
    have ha := product_pb toks hexp f pos a p hh
    have hx := mathAux_pb toks (sumStep_pb toks hexp f) f a p r q h
      ha.2.2.2.1 ha.2.2.2.2.1 (fun hb => ha.2.2.2.2.2 (by omega))
    refine ⟨by omega, fun hb => hx.2.1 (ha.2.1 hb), by omega, hx.2.2.2.1,
      hx.2.2.2.2.1, fun hb => hx.2.2.2.2.2 (ha.2.1 hb)⟩
  · cases h
  · cases h

/-- Bounds and spans for the logical fold step. -/
theorem logStep_pb {exp : List Token → Nat → PRes (Spanned ast.Expression)}
    (toks : List Token) (hexp : PB toks (exp toks)) (f : Nat) :
    PBStep toks (logStep exp f toks) := by
  intro pos op b q h
  unfold logStep at h
  split at h
  · rename_i hg
    split at h
    · rename_i b0 q0 hc
      have hb := sum_pb toks hexp f (pos + 1) b0 q0 hc
      have hlt : pos < toks.length := pos_lt_of_getElem? hg
      cases h
      exact ⟨by omega, fun _ => hb.2.1 (by omega), by omega, hb.2.2.2.1,
        hb.2.2.2.2.1, fun _ => hb.2.2.2.2.2 (by omega)⟩
    · cases h
    · cases h
  · rename_i hg
    split at h
    · rename_i b0 q0 hc
      have hb := sum_pb toks hexp f (pos + 1) b0 q0 hc
      have hlt : pos < toks.length := pos_lt_of_getElem? hg
      cases h
      exact ⟨by omega, fun _ => hb.2.1 (by omega), by omega, hb.2.2.2.1,
        hb.2.2.2.2.1, fun _ => hb.2.2.2.2.2 (by omega)⟩
    · cases h
    · cases h
  · rename_i hg
    split at h
    · rename_i b0 q0 hc
      have hb := sum_pb toks hexp f (pos + 1) b0 q0 hc
      have hlt : pos < toks.length := pos_lt_of_getElem? hg
      cases h
      exact ⟨by omega, fun _ => hb.2.1 (by omega), by omega, hb.2.2.2.1,
        hb.2.2.2.2.1, fun _ => hb.2.2.2.2.2 (by omega)⟩
    · cases h
    · cases h
  · cases h

/-- Bounds and spans for the Binary fold of the logical layer. -/
theorem logicalAux_pb {step : Nat → PRes (ast.BinaryOp × Spanned ast.Expression)}
    (toks : List Token) (hstep : PBStep toks step) :
    ∀ f a pos r q, logicalAux step f a pos = .ok r q →
      a.2.1 ≤ a.2.2 → a.2.2 ≤ pos →
      (pos ≤ toks.length → SpanWF toks.length a.1 a.2.1 a.2.2) →
      pos ≤ q ∧ (pos ≤ toks.length → q ≤ toks.length) ∧
      r.2.1 = a.2.1 ∧ r.2.1 ≤ r.2.2 ∧ r.2.2 ≤ q ∧
      (pos ≤ toks.length → SpanWF toks.length r.1 r.2.1 r.2.2) := by
  intro f
  induction f with
  | zero => intro a pos r q h _ _ _; exact absurd h (by simp [logicalAux])
  | succ g ih =>
    intro a pos r q h h1 h2 h3
    rw [logicalAux] at h
    split at h
    · cases h
      exact ⟨le_rfl, fun hb => hb, rfl, h1, h2, h3⟩
    · cases h
    · rename_i op b q' hst
      have hs := hstep pos op b q' hst
      have hx := ih (.Binary a op b, a.2.1, b.2.2) q' r q h
        (by show a.2.1 ≤ b.2.2; omega) (by show b.2.2 ≤ q'; omega)
        (fun hb => by
          exact SpanWF.bin a op b a.2.1 b.2.2 (by omega) (by omega) le_rfl
            (by omega) (by omega) le_rfl (h3 (by omega)) (hs.2.2.2.2.2 (by omega)))
      refine ⟨by omega, fun hb => hx.2.1 (hs.2.1 hb), hx.2.2.1, hx.2.2.2.1,
        hx.2.2.2.2.1, fun hb => hx.2.2.2.2.2 (hs.2.1 hb)⟩

/-- Bounds and spans for the logical layer. -/
theorem logical_pb {exp : List Token → Nat → PRes (Spanned ast.Expression)}
    (toks : List Token) (hexp : PB toks (exp toks)) (f : Nat) :
    PB toks (logical exp f toks) := by
  intro pos r q h
  unfold logical at h
  split at h
  · rename_i a p hh
    have ha := sum_pb toks hexp f pos a p hh
    have hx := logicalAux_pb toks (logStep_pb toks hexp f) f a p r q h
      ha.2.2.2.1 ha.2.2.2.2.1 (fun hb => ha.2.2.2.2.2 (by omega))
    refine ⟨by omega, fun hb => hx.2.1 (ha.2.1 hb), by omega, hx.2.2.2.1,
      hx.2.2.2.2.1, fun hb => hx.2.2.2.2.2 (ha.2.1 hb)⟩
  · cases h
  · cases h

/-- Bounds and spans for the comparison fold step. -/
theorem compStep_pb {exp : List Token → Nat → PRes (Spanned ast.Expression)}
    (toks : List Token) (hexp : PB toks (exp toks)) (f : Nat) :
    PBStep toks (compStep exp f toks) := by
  intro pos op b q h
  unfold compStep at h
  split at h
  · rename_i hg
    split at h
    · rename_i b0 q0 hc
      have hb := logical_pb toks hexp f (pos + 1) b0 q0 hc
      have hlt : pos < toks.length := pos_lt_of_getElem? hg
      cases h
      exact ⟨by omega, fun _ => hb.2.1 (by omega), by omega, hb.2.2.2.1,
        hb.2.2.2.2.1, fun _ => hb.2.2.2.2.2 (by omega)⟩
    · cases h
    · cases h
  · rename_i hg
    split at h
    · rename_i b0 q0 hc
      have hb := logical_pb toks hexp f (pos + 1) b0 q0 hc
      have hlt : pos < toks.length := pos_lt_of_getElem? hg
      cases h
      exact ⟨by omega, fun _ => hb.2.1 (by omega), by omega, hb.2.2.2.1,
        hb.2.2.2.2.1, fun _ => hb.2.2.2.2.2 (by omega)⟩
    · cases h
    · cases h
  · rename_i hg
    split at h
    · rename_i b0 q0 hc
      have hb := logical_pb toks hexp f (pos + 1) b0 q0 hc
      have hlt : pos < toks.length := pos_lt_of_getElem? hg
      cases h
      exact ⟨by omega, fun _ => hb.2.1 (by omega), by omega, hb.2.2.2.1,
        hb.2.2.2.2.1, fun _ => hb.2.2.2.2.2 (by omega)⟩
    · cases h
    · cases h
  · rename_i hg
    split at h
    · rename_i b0 q0 hc
      have hb := logical_pb toks hexp f (pos + 1) b0 q0 hc
      have hlt : pos < toks.length := pos_lt_of_getElem? hg
      cases h
      exact ⟨by omega, fun _ => hb.2.1 (by omega), by omega, hb.2.2.2.1,
        hb.2.2.2.2.1, fun _ => hb.2.2.2.2.2 (by omega)⟩
    · cases h
    · cases h
  · cases h

/-- Bounds and spans for the Comparison fold of the comparison layer. -/
theorem compAux_pb {step : Nat → PRes (ast.ComparisonOp × Spanned ast.Expression)}
    (toks : List Token) (hstep : PBStep toks step) :
    ∀ f a pos r q, compAux step f a pos = .ok r q →
      a.2.1 ≤ a.2.2 → a.2.2 ≤ pos →
      (pos ≤ toks.length → SpanWF toks.length a.1 a.2.1 a.2.2) →
      pos ≤ q ∧ (pos ≤ toks.length → q ≤ toks.length) ∧
      r.2.1 = a.2.1 ∧ r.2.1 ≤ r.2.2 ∧ r.2.2 ≤ q ∧
      (pos ≤ toks.length → SpanWF toks.length r.1 r.2.1 r.2.2) := by
  intro f
  induction f with
  | zero => intro a pos r q h _ _ _; exact absurd h (by simp [compAux])
  | succ g ih =>
    intro a pos r q h h1 h2 h3
    rw [compAux] at h
    split at h
    · cases h
      exact ⟨le_rfl, fun hb => hb, rfl, h1, h2, h3⟩
    · cases h
    · rename_i op b q' hst
      have hs := hstep pos op b q' hst
      have hx := ih (.Comparison a op b, a.2.1, b.2.2) q' r q h
        (by show a.2.1 ≤ b.2.2; omega) (by show b.2.2 ≤ q'; omega)
        (fun hb => by
          exact SpanWF.cmp a op b a.2.1 b.2.2 (by omega) (by omega) le_rfl
            (by omega) (by omega) le_rfl (h3 (by omega)) (hs.2.2.2.2.2 (by omega)))
      refine ⟨by omega, fun hb => hx.2.1 (hs.2.1 hb), hx.2.2.1, hx.2.2.2.1,
        hx.2.2.2.2.1, fun hb => hx.2.2.2.2.2 (hs.2.1 hb)⟩

/-- Bounds and spans for the comparison layer, the full inline
expression. -/
theorem comp_pb {exp : List Token → Nat → PRes (Spanned ast.Expression)}
    (toks : List Token) (hexp : PB toks (exp toks)) (f : Nat) :
    PB toks (comp exp f toks) := by
  intro pos r q h
  unfold comp at h
  split at h
  · rename_i a p hh
    have ha := logical_pb toks hexp f pos a p hh
    have hx := compAux_pb toks (compStep_pb toks hexp f) f a p r q h
      ha.2.2.2.1 ha.2.2.2.2.1 (fun hb => ha.2.2.2.2.2 (by omega))
    refine ⟨by omega, fun hb => hx.2.1 (ha.2.1 hb), by omega, hx.2.2.2.1,
      hx.2.2.2.2.1, fun hb => hx.2.2.2.2.2 (ha.2.1 hb)⟩
  · cases h
  · cases h

/-- Bounds and spans for the block alternative of the expression choice. -/
theorem blockB_pb (toks : List Token) (f : Nat) : PB toks (blockB f toks) := by
  intro pos r q h
  unfold blockB at h
  split at h
  · rename_i sp q' hrec
    obtain ⟨hs1, hs2, hs3, hs4, hs5, hs6⟩ := recoverDelim_ok hrec
    cases h
    exact ⟨by omega, fun _ => by omega, by show pos ≤ sp.1; omega,
      by show sp.1 ≤ sp.2; omega, by show sp.2 ≤ q; omega,
      fun hb => SpanWF.perr sp.1 sp.2 (by omega) (by omega)⟩
  · cases h
  · cases h

/-- Bounds and spans for the tied expression parser, by induction on the
fuel. -/
theorem expressionP_pb (toks : List Token) : ∀ f, PB toks (expressionP f toks) := by
  intro f
  induction f with
  | zero => intro pos r q h; exact absurd h (by simp [expressionP])
  | succ g ih =>
    intro pos r q h
    rw [expressionP] at h
    rcases por_ok h with h1 | ⟨_, h2⟩
    · exact blockB_pb toks g pos r q h1
    · exact comp_pb toks ih g pos r q h2

section NoOut

variable {exp : List Token → Nat → PRes (Spanned ast.Expression)} {toks : List Token} {g : Nat}

/-- Liveness of the optional-suffix atom alternative: it never needs
fuel. -/
theorem atomOpt_noout (toks : List Token) (pos : Nat) : atomOpt toks pos ≠ .out := by
  intro hout
  unfold atomOpt at hout
  split at hout
  · split at hout <;> cases hout
  · cases hout
  · unfold atomHead at * ; split at * <;> simp_all

/-- Liveness of the parenthesised atom alternative. -/
theorem atomParen_noout
    (hexpo : ∀ p, toks.length < g + p → p ≤ toks.length → exp toks p ≠ .out)
    (pos : Nat) (h1 : toks.length ≤ g + pos) :
    atomParen exp toks pos ≠ .out := by
  intro hout
  unfold atomParen at hout
  split at hout
  · rename_i hg
    have hlt : pos < toks.length := pos_lt_of_getElem? hg
    split at hout
    · split at hout <;> cases hout
    · cases hout
    · rename_i hin
      exact hexpo (pos + 1) (by omega) (by omega) hin
  · cases hout

/-- Liveness of the atom layer. -/
theorem atom_noout
    (hexpo : ∀ p, toks.length < g + p → p ≤ toks.length → exp toks p ≠ .out)
    (pos : Nat) (h1 : toks.length ≤ g + pos) :
    atom exp g toks pos ≠ .out := by
  intro hout
  unfold atom at hout
  rcases por_out hout with h2 | ⟨h2, h3⟩
  · rcases por_out h2 with h4 | ⟨h4, h5⟩
    · exact atomOpt_noout toks pos h4
    · exact atomParen_noout hexpo pos h1 h5
  · split at h3
    · cases h3
    · cases h3
    · rename_i hrec
      exact recoverDelim_noout h1 hrec

/-- Liveness of the iterations of the list collector; the iteration fuel
exceeds the remaining input by one because each iteration consumes a comma
and at least one further token. -/
theorem itemsAux_noout (hexp : PB toks (exp toks))
    (hexpo : ∀ p, toks.length < g + p → p ≤ toks.length → exp toks p ≠ .out) (sf : Nat) :
    ∀ f acc pos, toks.length + 1 ≤ f + pos → toks.length ≤ g + pos → pos ≤ toks.length →
      itemsAux exp toks sf f acc pos ≠ .out := by
  intro f
  induction f with
  | zero => intro acc pos h1 h2 h3; omega
  | succ fg ih =>
    intro acc pos h1 h2 h3 hout
    rw [itemsAux] at hout
    split at hout
    · rename_i hg
      have hlt : pos < toks.length := pos_lt_of_getElem? hg
      split at hout
      · rename_i e p1 hel
        have he := hexp (pos + 1) e p1 hel
        have hp1 : p1 ≤ toks.length := he.2.1 (by omega)
        have hsep1 : p1 ≤ separator toks sf p1 := sep_ge toks sf p1
        have hsep2 : separator toks sf p1 ≤ toks.length := sep_le toks sf p1 hp1
        exact ih (acc ++ [e]) (separator toks sf p1) (by omega) (by omega) (by omega) hout
      · cases hout
      · rename_i hel
        exact hexpo (pos + 1) (by omega) (by omega) hel
    · cases hout

/-- Liveness of the item collector. -/
theorem items_noout (hexp : PB toks (exp toks))
    (hexpo : ∀ p, toks.length < g + p → p ≤ toks.length → exp toks p ≠ .out)
    (pos : Nat) (h1 : toks.length < g + pos) (h2 : pos ≤ toks.length) :
    items exp g toks pos ≠ .out := by
  intro hout
  unfold items at hout
  split at hout
  · rename_i hel
    exact hexpo pos h1 h2 hel
  · cases hout
  · rename_i e p1 hel
    have he := hexp pos e p1 hel
    have hp1 : p1 ≤ toks.length := he.2.1 h2
    have hsep1 : p1 ≤ separator toks g p1 := sep_ge toks g p1
    have hsep2 : separator toks g p1 ≤ toks.length := sep_le toks g p1 hp1
    exact itemsAux_noout hexp hexpo g g [e] (separator toks g p1)
      (by omega) (by omega) (by omega) hout

/-- Liveness of the parenthesised list parser. -/
theorem list_noout (hexp : PB toks (exp toks))
    (hexpo : ∀ p, toks.length < g + p → p ≤ toks.length → exp toks p ≠ .out)
    (pos : Nat) (h1 : toks.length ≤ g + pos) (_h2 : pos ≤ toks.length) :
    list exp g toks pos ≠ .out := by
  intro hout
  unfold list at hout
  rcases por_out hout with h3 | ⟨h3, h4⟩
  · split at h3
    · rename_i hg
      have hlt : pos < toks.length := pos_lt_of_getElem? hg
      split at h3
      · split at h3 <;> cases h3
      · cases h3
      · rename_i hit
        exact items_noout hexp hexpo (pos + 1) (by omega) (by omega) hit
    · cases h3
  · split at h4
    · cases h4
    · cases h4
    · rename_i hrec
      exact recoverDelim_noout h1 hrec

/-- Liveness of the function-call fold. -/
theorem callAux_noout (hexp : PB toks (exp toks))
    (hexpo : ∀ p, toks.length < g + p → p ≤ toks.length → exp toks p ≠ .out) :
    ∀ f func pos, toks.length + 1 ≤ f + pos → toks.length ≤ g + pos →
      pos ≤ toks.length → callAux exp toks g f func pos ≠ .out := by
  intro f
  induction f with
  | zero => intro func pos h1 h2 h3; omega
  | succ fg ih =>
    intro func pos h1 h2 h3 hout
    rw [callAux] at hout
    split at hout
    · cases hout
    · rename_i hlst
      exact list_noout hexp hexpo pos h2 h3 hlst
    · rename_i args q' hlst
      have hl := list_pb toks hexp g pos args q' hlst
      exact ih (.FunctionCall func args, func.2.1, q') q'
        (by omega) (by omega) (hl.2.1 h3) hout

/-- Liveness of the call layer. -/
theorem call_noout (hexp : PB toks (exp toks))
    (hexpo : ∀ p, toks.length < g + p → p ≤ toks.length → exp toks p ≠ .out)
    (pos : Nat) (h1 : toks.length ≤ g + pos) (h2 : pos ≤ toks.length) :
    call exp g toks pos ≠ .out := by
  intro hout
  unfold call at hout
  split at hout
  · rename_i a p ha
    have hat := atom_pb toks hexp g pos a p ha
    exact callAux_noout hexp hexpo g a p (by omega) (by omega) (hat.2.1 h2) hout
  · cases hout
  · rename_i ha
    exact atom_noout hexpo pos h1 ha

/-- Liveness of the method-call layer. -/
theorem method_call_noout (hexp : PB toks (exp toks))
    (hexpo : ∀ p, toks.length < g + p → p ≤ toks.length → exp toks p ≠ .out)
    (pos : Nat) (h1 : toks.length ≤ g + pos) (h2 : pos ≤ toks.length) :
    method_call exp g toks pos ≠ .out := by
  intro hout
  unfold method_call at hout
  split at hout
  · rename_i recv p1 hh
    have hr : pos < p1 ∧ (pos ≤ toks.length → p1 ≤ toks.length) := by
      rcases por_ok hh with hA | ⟨_, hC⟩
      · have := atom_pb toks hexp g pos recv p1 hA
        exact ⟨this.1, this.2.1⟩
      · have := call_pb toks hexp g pos recv p1 hC
        exact ⟨this.1, this.2.1⟩
    have hsep1 : p1 ≤ separator toks g p1 := sep_ge toks g p1
    split at hout
    · rename_i hper
      have hlt1 : separator toks g p1 < toks.length := pos_lt_of_getElem? hper
      split at hout
      · rename_i name hname
        have hlt2 : separator toks g p1 + 1 < toks.length := pos_lt_of_getElem? hname
        split at hout
        · cases hout
        · cases hout
        · rename_i hlst
          exact list_noout hexp hexpo (separator toks g p1 + 2)
            (by omega) (by omega) hlst
      · cases hout
    · cases hout
  · cases hout
  · rename_i hh
    rcases por_out hh with h3 | ⟨h3, h4⟩
    · exact atom_noout hexpo pos h1 h3
    · exact call_noout hexp hexpo pos h1 h2 h4

/-- Liveness of the product fold step. -/
theorem prodStep_noout (hexp : PB toks (exp toks))
    (hexpo : ∀ p, toks.length < g + p → p ≤ toks.length → exp toks p ≠ .out)
    (pos : Nat) (h1 : toks.length ≤ g + pos) (_h2 : pos ≤ toks.length) :
    prodStep exp g toks pos ≠ .out := by
  intro hout
  unfold prodStep at hout
  split at hout
  · rename_i hg
    have hlt : pos < toks.length := pos_lt_of_getElem? hg
    split at hout
    · cases hout
    · cases hout
    · rename_i hc
      exact call_noout hexp hexpo (pos + 1) (by omega) (by omega) hc
  · rename_i hg
    have hlt : pos < toks.length := pos_lt_of_getElem? hg
    split at hout
    · cases hout
    · cases hout
    · rename_i hc
      exact call_noout hexp hexpo (pos + 1) (by omega) (by omega) hc
  · cases hout

/-- Liveness of the MathOp fold, generic in the step parser. -/
theorem mathAux_noout {step : Nat → PRes (ast.MathOp × Spanned ast.Expression)}
    (hstep : PBStep toks step)
    (hstepo : ∀ p, toks.length ≤ g + p → p ≤ toks.length → step p ≠ .out) :
    ∀ f a pos, toks.length + 1 ≤ f + pos → toks.length ≤ g + pos →
      pos ≤ toks.length → mathAux step f a pos ≠ .out := by
  intro f
  induction f with
  | zero => intro a pos h1 h2 h3; omega
  | succ fg ih =>
    intro a pos h1 h2 h3 hout
    rw [mathAux] at hout
    split at hout
    · cases hout
    · rename_i hst
      exact hstepo pos h2 h3 hst
    · rename_i op b q' hst
      have hs := hstep pos op b q' hst
      exact ih (.MathOp a op b, a.2.1, b.2.2) q' (by omega) (by omega) (hs.2.1 h3) hout

/-- Liveness of the product layer. -/
theorem product_noout (hexp : PB toks (exp toks))
    (hexpo : ∀ p, toks.length < g + p → p ≤ toks.length → exp toks p ≠ .out)
    (pos : Nat) (h1 : toks.length ≤ g + pos) (h2 : pos ≤ toks.length) :
    product exp g toks pos ≠ .out := by
  intro hout
  unfold product at hout
  split at hout
  · rename_i a p hh
    have ha : pos < p ∧ (pos ≤ toks.length → p ≤ toks.length) := by
      rcases por_ok hh with hA | ⟨_, hC⟩
      · have := method_call_pb toks hexp g pos a p hA
        exact ⟨this.1, this.2.1⟩
      · have := call_pb toks hexp g pos a p hC
        exact ⟨this.1, this.2.1⟩
    exact mathAux_noout (prodStep_pb toks hexp g)
      (fun p hp1 hp2 => prodStep_noout hexp hexpo p hp1 hp2) g a p
      (by omega) (by omega) (ha.2 h2) hout
  · cases hout
  · rename_i hh
    rcases por_out hh with h3 | ⟨h3, h4⟩
    · exact method_call_noout hexp hexpo pos h1 h2 h3
    · exact call_noout hexp hexpo pos h1 h2 h4

/-- Liveness of the sum fold step. -/
theorem sumStep_noout (hexp : PB toks (exp toks))
    (hexpo : ∀ p, toks.length < g + p → p ≤ toks.length → exp toks p ≠ .out)
    (pos : Nat) (h1 : toks.length ≤ g + pos) (_h2 : pos ≤ toks.length) :
    sumStep exp g toks pos ≠ .out := by
  intro hout
  unfold sumStep at hout
  split at hout
  · rename_i hg
    have hlt : pos < toks.length := pos_lt_of_getElem? hg
    split at hout
    · cases hout
    · cases hout
    · rename_i hc
      exact product_noout hexp hexpo (pos + 1) (by omega) (by omega) hc
  · rename_i hg
    have hlt : pos < toks.length := pos_lt_of_getElem? hg
    split at hout
    · cases hout
    · cases hout
    · rename_i hc
      exact product_noout hexp hexpo (pos + 1) (by omega) (by omega) hc
  · cases hout

/-- Liveness of the sum layer. -/
theorem sum_noout (hexp : PB toks (exp toks))
    (hexpo : ∀ p, toks.length < g + p → p ≤ toks.length → exp toks p ≠ .out)
    (pos : Nat) (h1 : toks.length ≤ g + pos) (h2 : pos ≤ toks.length) :
    sum exp g toks pos ≠ .out := by
  intro hout
  unfold sum at hout
  split at hout
  · rename_i a p hh
    have ha := product_pb toks hexp g pos a p hh
    exact mathAux_noout (sumStep_pb toks hexp g)
      (fun p hp1 hp2 => sumStep_noout hexp hexpo p hp1 hp2) g a p
      (by omega) (by omega) (ha.2.1 h2) hout
  · cases hout
  · rename_i hh
    exact product_noout hexp hexpo pos h1 h2 hh

/-- Liveness of the logical fold step. -/
theorem logStep_noout (hexp : PB toks (exp toks))
    (hexpo : ∀ p, toks.length < g + p → p ≤ toks.length → exp toks p ≠ .out)
    (pos : Nat) (h1 : toks.length ≤ g + pos) (_h2 : pos ≤ toks.length) :
    logStep exp g toks pos ≠ .out := by
  intro hout
  unfold logStep at hout
  split at hout
  · rename_i hg
    have hlt : pos < toks.length := pos_lt_of_getElem? hg
    split at hout
    · cases hout
    · cases hout
    · rename_i hc
      exact sum_noout hexp hexpo (pos + 1) (by omega) (by omega) hc
  · rename_i hg
    have hlt : pos < toks.length := pos_lt_of_getElem? hg
    split at hout
    · cases hout
    · cases hout
    · rename_i hc
      exact sum_noout hexp hexpo (pos + 1) (by omega) (by omega) hc
  · rename_i hg
    have hlt : pos < toks.length := pos_lt_of_getElem? hg
    split at hout
    · cases hout
    · cases hout
    · rename_i hc
      exact sum_noout hexp hexpo (pos + 1) (by omega) (by omega) hc
  · cases hout

/-- Liveness of the Binary fold, generic in the step parser. -/
theorem logicalAux_noout {step : Nat → PRes (ast.BinaryOp × Spanned ast.Expression)}
    (hstep : PBStep toks step)
    (hstepo : ∀ p, toks.length ≤ g + p → p ≤ toks.length → step p ≠ .out) :
    ∀ f a pos, toks.length + 1 ≤ f + pos → toks.length ≤ g + pos →
      pos ≤ toks.length → logicalAux step f a pos ≠ .out := by
  intro f
  induction f with
  | zero => intro a pos h1 h2 h3; omega
  | succ fg ih =>
    intro a pos h1 h2 h3 hout
    rw [logicalAux] at hout
    split at hout
    · cases hout
    · rename_i hst
      exact hstepo pos h2 h3 hst
    · rename_i op b q' hst
      have hs := hstep pos op b q' hst
      exact ih (.Binary a op b, a.2.1, b.2.2) q' (by omega) (by omega) (hs.2.1 h3) hout

/-- Liveness of the logical layer. -/
theorem logical_noout (hexp : PB toks (exp toks))
    (hexpo : ∀ p, toks.length < g + p → p ≤ toks.length → exp toks p ≠ .out)
    (pos : Nat) (h1 : toks.length ≤ g + pos) (h2 : pos ≤ toks.length) :
    logical exp g toks pos ≠ .out := by
  intro hout
  unfold logical at hout
  split at hout
  · rename_i a p hh
    have ha := sum_pb toks hexp g pos a p hh
    exact logicalAux_noout (logStep_pb toks hexp g)
      (fun p hp1 hp2 => logStep_noout hexp hexpo p hp1 hp2) g a p
      (by omega) (by omega) (ha.2.1 h2) hout
  · cases hout
  · rename_i hh
    exact sum_noout hexp hexpo pos h1 h2 hh

/-- Liveness of the comparison fold step. -/
theorem compStep_noout (hexp : PB toks (exp toks))
    (hexpo : ∀ p, toks.length < g + p → p ≤ toks.length → exp toks p ≠ .out)
    (pos : Nat) (h1 : toks.length ≤ g + pos) (_h2 : pos ≤ toks.length) :
    compStep exp g toks pos ≠ .out := by
  intro hout
  unfold compStep at hout
  split at hout
  · rename_i hg
    have hlt : pos < toks.length := pos_lt_of_getElem? hg
    split at hout
    · cases hout
    · cases hout
    · rename_i hc
      exact logical_noout hexp hexpo (pos + 1) (by omega) (by omega) hc
  · rename_i hg
    have hlt : pos < toks.length := pos_lt_of_getElem? hg
    split at hout
    · cases hout
    · cases hout
    · rename_i hc
      exact logical_noout hexp hexpo (pos + 1) (by omega) (by omega) hc
  · rename_i hg
    have hlt : pos < toks.length := pos_lt_of_getElem? hg
    split at hout
    · cases hout
    · cases hout
    · rename_i hc
      exact logical_noout hexp hexpo (pos + 1) (by omega) (by omega) hc
  · rename_i hg
    have hlt : pos < toks.length := pos_lt_of_getElem? hg
    split at hout
    · cases hout
    · cases hout
    · rename_i hc
      exact logical_noout hexp hexpo (pos + 1) (by omega) (by omega) hc
  · cases hout

/-- Liveness of the Comparison fold, generic in the step parser. -/
theorem compAux_noout {step : Nat → PRes (ast.ComparisonOp × Spanned ast.Expression)}
    (hstep : PBStep toks step)
    (hstepo : ∀ p, toks.length ≤ g + p → p ≤ toks.length → step p ≠ .out) :
    ∀ f a pos, toks.length + 1 ≤ f + pos → toks.length ≤ g + pos →
      pos ≤ toks.length → compAux step f a pos ≠ .out := by
  intro f
  induction f with
  | zero => intro a pos h1 h2 h3; omega
  | succ fg ih =>
    intro a pos h1 h2 h3 hout
    rw [compAux] at hout
    split at hout
    · cases hout
    · rename_i hst
      exact hstepo pos h2 h3 hst
    · rename_i op b q' hst
      have hs := hstep pos op b q' hst
      exact ih (.Comparison a op b, a.2.1, b.2.2) q' (by omega) (by omega) (hs.2.1 h3) hout

/-- Liveness of the comparison layer. -/
theorem comp_noout (hexp : PB toks (exp toks))
    (hexpo : ∀ p, toks.length < g + p → p ≤ toks.length → exp toks p ≠ .out)
    (pos : Nat) (h1 : toks.length ≤ g + pos) (h2 : pos ≤ toks.length) :
    comp exp g toks pos ≠ .out := by
  intro hout
  unfold comp at hout
  split at hout
  · rename_i a p hh
    have ha := logical_pb toks hexp g pos a p hh
    exact compAux_noout (compStep_pb toks hexp g)
      (fun p hp1 hp2 => compStep_noout hexp hexpo p hp1 hp2) g a p
      (by omega) (by omega) (ha.2.1 h2) hout
  · cases hout
  · rename_i hh
    exact logical_noout hexp hexpo pos h1 h2 hh

/-- Liveness of the block alternative. -/
theorem blockB_noout (toks : List Token) (f pos : Nat) (h1 : toks.length ≤ f + pos) :
    blockB f toks pos ≠ .out := by
  intro hout
  unfold blockB at hout
  split at hout
  · cases hout
  · cases hout
  · rename_i hrec
    exact recoverDelim_noout h1 hrec

end NoOut

/-- Liveness of the expression parser: fuel exceeding the remaining input
never runs out, because every recursive unfolding of the grammar consumes
at least one token first.  This is the termination invariant of section 5
of the specification. -/
theorem expressionP_noout (toks : List Token) :
    ∀ f pos, toks.length < f + pos → pos ≤ toks.length →
      expressionP f toks pos ≠ .out := by
  intro f
  induction f with
  | zero => intro pos h1 h2; omega
  | succ g ih =>
    intro pos h1 h2 hout
    rw [expressionP] at hout
    rcases por_out hout with h3 | ⟨h3, h4⟩
    · exact blockB_noout toks g pos (by omega) h3
    · exact comp_noout (expressionP_pb toks g) ih pos (by omega) h2 h4

/-- Unfolding of one iteration of the call fold at positive fuel. -/
theorem callAux_fold_eq {exp : List Token → Nat → PRes (Spanned ast.Expression)}
    {toks : List Token} {lf g : Nat} {func : Spanned ast.Expression} {pos : Nat} :
    callAux exp toks lf (g + 1) func pos =
      match list exp lf toks pos with
      | .fail => .ok func pos
      | .out => .out
      | .ok args q => callAux exp toks lf g (.FunctionCall func args, func.2.1, q) q :=
  rfl

/-- C1: the claim states that wrapping in Value(Option(..)) occurs exactly
when a QuestionMark follows, a bare identifier parsing to Ident(name).
The code instead binds the captured optional and never uses it
(expression_parser.rs lines 40 to 42), wrapping every atom
unconditionally: evaluating the code at the failing input, the token
stream of a bare x parses to Value(Option(Ident x)), which is not
Ident x; the questioned form yields the same expression, larger span. -/
theorem c1_wrap_is_unconditional :
    parse_from_lex [.Ident "x"] = some (.Value (.Option (.Ident "x")), 0, 1) ∧
    parse_from_lex [.Ident "x", .QuestionMark] =
      some (.Value (.Option (.Ident "x")), 0, 2) ∧
    ast.Expression.Value (.Option (.Ident "x")) ≠ ast.Expression.Ident "x" := by
  refine ⟨rfl, rfl, fun h => ?_⟩
  cases h

/-- C2: product operators strictly bind tighter than sum operators: the
token stream of 1+2*3 parses to MathOp(1, Add, MathOp(2, Mul, 3)), the
multiplication nested as the right child of the addition (the leaves carry
the unconditional Value(Option(..)) wrapper the atom layer emits, see
C1/C10). -/
theorem c2_product_binds_tighter :
    parse_from_lex [.Integer 1, .Add, .Integer 2, .Mul, .Integer 3] =
      some (.MathOp (.Value (.Option (.Value (.Number (.Int 1)))), 0, 1) .Add
        (.MathOp (.Value (.Option (.Value (.Number (.Int 2)))), 2, 3) .Mul
          (.Value (.Option (.Value (.Number (.Int 3)))), 4, 5), 2, 5), 0, 5) := by
  rfl

/-- C3 counterexample: the claim says the tree is absent only when the
input slice is empty, but the non-empty token stream consisting of a
single plus sign produces no tree either: it fails to parse as an
expression and no bracket recovery applies. -/
theorem c3_counterexample :
    parse_from_lex [Token.Add] = none ∧ ([Token.Add] : List Token) ≠ [] :=
  ⟨rfl, by decide⟩

/-- C3 amended: the parse entry point always returns rather than aborting
(the canonical fuel never runs out), and a tree, possibly containing
ParserError nodes, is produced exactly when the expression grammar
succeeds on the whole input; the tree is absent not only on empty input
but also whenever the tokens fail to parse as an expression. -/
theorem c3_amended :
    (∀ toks : List Token, expressionP (toks.length + 1) toks 0 ≠ .out) ∧
    parse_from_lex ([] : List Token) = none ∧
    (∀ (toks : List Token) (r : Spanned ast.Expression) (q : Nat),
      expressionP (toks.length + 1) toks 0 = .ok r q → q = toks.length →
        parse_from_lex toks = some r) ∧
    (∀ toks : List Token, expressionP (toks.length + 1) toks 0 = .fail →
        parse_from_lex toks = none) := by
  refine ⟨fun toks => expressionP_noout toks (toks.length + 1) 0 (by omega) (by omega),
    rfl, fun toks r q h hq => ?_, fun toks h => ?_⟩
  · unfold parse_from_lex
    rw [h]
    show (if q = toks.length then some r else none) = some r
    rw [if_pos hq]
  · unfold parse_from_lex
    rw [h]

/-- C3 witness: the amended statement applied to a concrete one-token
input. -/
theorem c3_witness :
    parse_from_lex [Token.Ident "x"] = some (.Value (.Option (.Ident "x")), 0, 1) ∧
    expressionP 2 [Token.Ident "x"] 0 ≠ .out :=
  ⟨c3_amended.2.2.1 [Token.Ident "x"] (.Value (.Option (.Ident "x")), 0, 1) 1 rfl rfl,
   c3_amended.1 [Token.Ident "x"]⟩

/-- C4 counterexample: the claim says an unterminated bracketed construct
yields a tree containing a ParserError node spanning to end of input plus
a diagnostic; on the specification's own example input (1+ the parse
instead produces no tree at all, because the nested-delimiter recovery
requires the matching closing bracket. -/
theorem c4_counterexample :
    parse_from_lex [.Lparen, .Integer 1, .Add] = none := rfl

/-- C4 amended: whenever a bracketed construct fails to parse and its
bracket region is balanced, recovery substitutes a single ParserError node
spanning from the opening bracket to the matching closing bracket found at
depth zero inclusive, tracking nested bracket pairs of both kinds; but if
end of input is reached before the matching close, the recovery itself
fails and no ParserError node is substituted -- the enclosing parse fails
instead of completing with a node spanning to end of input. -/
theorem c4_amended :
    (∀ (f : Nat) (toks : List Token) (pos : Nat) (sp : Nat × Nat) (q : Nat),
      recoverDelim f toks pos = .ok sp q →
        sp = (pos, q) ∧ pos < q ∧ q ≤ toks.length ∧
        toks[pos]? = some .Lparen ∧ toks[q - 1]? = some .Rparen) ∧
    (∀ (exp : List Token → Nat → PRes (Spanned ast.Expression)) (f : Nat)
        (toks : List Token) (pos : Nat) (sp : Nat × Nat) (q : Nat),
      atomOpt toks pos = .fail → atomParen exp toks pos = .fail →
      recoverDelim f toks pos = .ok sp q →
        atom exp f toks pos = .ok (.ParserError, pos, q) q) ∧
    parse_from_lex [.Integer 1, .Add, .Lparen, .Lbracket, .Comma, .Rbracket, .Rparen] =
      some (.MathOp (.Value (.Option (.Value (.Number (.Int 1)))), 0, 1) .Add
        (.ParserError, 2, 7), 0, 7) ∧
    (∀ (toks : List Token) (f : Nat) (close : Token) (q : Nat),
      nestedDelims toks f close toks.length ≠ .ok () q) := by
  refine ⟨?_, ?_, rfl, ?_⟩
  · intro f toks pos sp q h
    obtain ⟨h1, h2, h3, h4, h5, h6⟩ := recoverDelim_ok h
    refine ⟨?_, h3, h4, h5, h6⟩
    obtain ⟨a, b⟩ := sp
    simp_all
  · intro exp f toks pos sp q hOpt hParen hrec
    obtain ⟨h1, h2, h3, h4, h5, h6⟩ := recoverDelim_ok hrec
    obtain ⟨a, b⟩ := sp
    have h1a : a = pos := h1
    have h2a : b = q := h2
    subst h1a
    subst h2a
    unfold atom
    rw [hOpt, hParen, hrec]
    rfl
  · intro toks f close q hok
    obtain ⟨a, b, -⟩ := nd_ok toks f close toks.length q hok
    have := b (le_refl _)
    omega

/-- C4 witness: the amended recovery statement applied at the concrete
malformed bracketed region of 1+([,]), whose recovery spans nested
brackets of both kinds. -/
theorem c4_witness :
    atom (expressionP 7) 7
        [.Integer 1, .Add, .Lparen, .Lbracket, .Comma, .Rbracket, .Rparen] 2 =
      .ok (.ParserError, 2, 7) 7 :=
  c4_amended.2.1 (expressionP 7) 7
    [.Integer 1, .Add, .Lparen, .Lbracket, .Comma, .Rbracket, .Rparen] 2 (2, 7) 7
    rfl rfl rfl

/-- C5 counterexample: the claim says deeper method-call chains still
parse because the layer is re-entered by the outer folds; in the code the
outer folds re-enter only the call layer, so a.b().c() leaves the second
suffix unconsumed and the entry parse yields no tree. -/
theorem c5_counterexample :
    parse_from_lex [.Ident "a", .Period, .Ident "b", .Lparen, .Rparen,
      .Period, .Ident "c", .Lparen, .Rparen] = none := rfl

/-- C5 amended: each invocation of the method-call layer consumes exactly
one period-name suffix -- every success decomposes as one atom-or-call
receiver, one Period, one method name and one optional argument list,
producing a single MethodCall node -- while inputs with deeper method-call
chains do not parse, since no outer fold re-enters this layer (single
method calls such as a.b and a.b(1,2) parse as shown). -/
theorem c5_amended :
    (∀ (exp : List Token → Nat → PRes (Spanned ast.Expression)) (f : Nat)
        (toks : List Token) (pos : Nat) (r : Spanned ast.Expression) (q : Nat),
      method_call exp f toks pos = .ok r q →
        ∃ recv p1 name args,
          por (atom exp f toks pos) (call exp f toks pos) = .ok recv p1 ∧
          toks[separator toks f p1]? = some .Period ∧
          toks[separator toks f p1 + 1]? = some (.Ident name) ∧
          r = (.MethodCall recv name args, pos, q)) ∧
    parse_from_lex [.Ident "a", .Period, .Ident "b"] =
      some (.MethodCall (.Value (.Option (.Ident "a")), 0, 1) "b" [], 0, 3) ∧
    parse_from_lex [.Ident "a", .Period, .Ident "b", .Lparen, .Integer 1, .Comma,
        .Integer 2, .Rparen] =
      some (.MethodCall (.Value (.Option (.Ident "a")), 0, 1) "b"
        [(.Value (.Option (.Value (.Number (.Int 1)))), 4, 5),
         (.Value (.Option (.Value (.Number (.Int 2)))), 6, 7)], 0, 8) := by
  refine ⟨?_, rfl, rfl⟩
  intro exp f toks pos r q h
  unfold method_call at h
  split at h
  · rename_i recv p1 hh
    split at h
    · rename_i hper
      split at h
      · rename_i name hname
        split at h
        · rename_i args q' hlst
          cases h
          exact ⟨recv, p1, name, args, hh, hper, hname, rfl⟩
        · cases h
          exact ⟨recv, p1, name, [], hh, hper, hname, rfl⟩
        · cases h
      · cases h
    · cases h
  · cases h
  · cases h

/-- C5 witness: the amended decomposition applied to the concrete parse
of a.b. -/
theorem c5_witness :
    ∃ recv p1 name args,
      por (atom (expressionP 3) 3 [.Ident "a", .Period, .Ident "b"] 0)
          (call (expressionP 3) 3 [.Ident "a", .Period, .Ident "b"] 0) = .ok recv p1 ∧
      [Token.Ident "a", Token.Period, Token.Ident "b"][separator
          [Token.Ident "a", Token.Period, Token.Ident "b"] 3 p1]? = some .Period ∧
      [Token.Ident "a", Token.Period, Token.Ident "b"][separator
          [Token.Ident "a", Token.Period, Token.Ident "b"] 3 p1 + 1]? =
        some (.Ident name) ∧
      ((.MethodCall (.Value (.Option (.Ident "a")), 0, 1) "b" [], 0, 3) :
          Spanned ast.Expression) =
        (.MethodCall recv name args, 0, 3) :=
  c5_amended.1 (expressionP 3) 3 [.Ident "a", .Period, .Ident "b"] 0
    (.MethodCall (.Value (.Option (.Ident "a")), 0, 1) "b" [], 0, 3) 3 rfl

/-- C6: juxtaposed argument lists are left-folded onto an atom into nested
FunctionCall nodes: f(1)(2) parses to
FunctionCall(FunctionCall(f,[1]),[2]) (the atoms carrying their
unconditional Value(Option(..)) wrapper); the call binds tighter than the
binary operators, as 1*f(2) nests the call inside the MathOp; and the call
layer always succeeds by returning the atom unchanged when no argument
list follows. -/
theorem c6_call_layer :
    parse_from_lex [.Ident "f", .Lparen, .Integer 1, .Rparen, .Lparen, .Integer 2,
        .Rparen] =
      some (.FunctionCall
        (.FunctionCall (.Value (.Option (.Ident "f")), 0, 1)
          [(.Value (.Option (.Value (.Number (.Int 1)))), 2, 3)], 0, 4)
        [(.Value (.Option (.Value (.Number (.Int 2)))), 5, 6)], 0, 7) ∧
    parse_from_lex [.Integer 1, .Mul, .Ident "f", .Lparen, .Integer 2, .Rparen] =
      some (.MathOp (.Value (.Option (.Value (.Number (.Int 1)))), 0, 1) .Mul
        (.FunctionCall (.Value (.Option (.Ident "f")), 2, 3)
          [(.Value (.Option (.Value (.Number (.Int 2)))), 4, 5)], 2, 6), 0, 6) ∧
    (∀ (exp : List Token → Nat → PRes (Spanned ast.Expression)) (g : Nat)
        (toks : List Token) (pos : Nat) (a : Spanned ast.Expression) (p : Nat),
      atom exp (g + 1) toks pos = .ok a p → list exp (g + 1) toks p = .fail →
        call exp (g + 1) toks pos = .ok a p) := by
  refine ⟨rfl, rfl, ?_⟩
  intro exp g toks pos a p hat hlst
  unfold call
  rw [hat]
  show callAux exp toks (g + 1) (g + 1) a p = PRes.ok a p
  rw [callAux_fold_eq, hlst]

/-- C6 witness: the degenerate-call statement applied to a bare
identifier, where no argument list follows. -/
theorem c6_witness :
    call (expressionP 1) 1 [Token.Ident "f"] 0 =
      .ok (.Value (.Option (.Ident "f")), 0, 1) 1 :=
  c6_call_layer.2.2 (expressionP 1) 0 [Token.Ident "f"] 0
    (.Value (.Option (.Ident "f")), 0, 1) 1 rfl rfl

/-- C7: the logical layer folds and, or and xor left-associatively at one
precedence level over sums (no and-before-or special case), and the
comparison layer folds left-associatively over logical results, so a=b=c
parses to the left-leaning Comparison(Comparison(a,Eq,b),Eq,c), mixed
logical chains fold in first-come order, and a comparison of a logical
chain keeps the logical fold below the comparison. -/
theorem c7_logical_comparison_ladder :
    parse_from_lex [.Ident "a", .Eq, .Ident "b", .Eq, .Ident "c"] =
      some (.Comparison
        (.Comparison (.Value (.Option (.Ident "a")), 0, 1) .Eq
          (.Value (.Option (.Ident "b")), 2, 3), 0, 3) .Eq
        (.Value (.Option (.Ident "c")), 4, 5), 0, 5) ∧
    parse_from_lex [.Ident "a", .And, .Ident "b", .Or, .Ident "c"] =
      some (.Binary
        (.Binary (.Value (.Option (.Ident "a")), 0, 1) .And
          (.Value (.Option (.Ident "b")), 2, 3), 0, 3) .Or
        (.Value (.Option (.Ident "c")), 4, 5), 0, 5) ∧
    parse_from_lex [.Ident "a", .Or, .Ident "b", .And, .Ident "c"] =
      some (.Binary
        (.Binary (.Value (.Option (.Ident "a")), 0, 1) .Or
          (.Value (.Option (.Ident "b")), 2, 3), 0, 3) .And
        (.Value (.Option (.Ident "c")), 4, 5), 0, 5) ∧
    parse_from_lex [.Ident "a", .Eq, .Ident "b", .And, .Ident "c"] =
      some (.Comparison (.Value (.Option (.Ident "a")), 0, 1) .Eq
        (.Binary (.Value (.Option (.Ident "b")), 2, 3) .And
          (.Value (.Option (.Ident "c")), 4, 5), 2, 5), 0, 5) :=
  ⟨rfl, rfl, rfl, rfl⟩

/-- C8 counterexample: a zero-argument call f() is emitted with span
(0, 3), covering the closing bracket, while the union of its children's
spans is (0, 1): the composite node's span does not exactly equal the
union of its children's spans. -/
theorem c8_counterexample :
    parse_from_lex [.Ident "f", .Lparen, .Rparen] =
      some (.FunctionCall (.Value (.Option (.Ident "f")), 0, 1) [], 0, 3) ∧
    hull (childSpans (.FunctionCall (.Value (.Option (.Ident "f")), 0, 1) [])) =
      some (0, 1) ∧
    some ((0, 3) : Nat × Nat) ≠ some ((0, 1) : Nat × Nat) :=
  ⟨rfl, rfl, by decide⟩

/-- C8 amended: for every input and position, every emitted node's span
satisfies start at most end and lies within the bounds of the input
length, and every composite node's span contains the spans of all its
children (for call and method-call nodes the span properly extends past
the last child to the closing bracket, so equality with the children's
union can fail). -/
theorem c8_amended :
    ∀ (f : Nat) (toks : List Token) (pos : Nat) (r : Spanned ast.Expression) (q : Nat),
      expressionP f toks pos = .ok r q →
        pos ≤ r.2.1 ∧ r.2.1 ≤ r.2.2 ∧ r.2.2 ≤ q ∧
        (pos ≤ toks.length → q ≤ toks.length ∧ SpanWF toks.length r.1 r.2.1 r.2.2) := by
  intro f toks pos r q h
  have hx := expressionP_pb toks f pos r q h
  exact ⟨hx.2.2.1, hx.2.2.2.1, hx.2.2.2.2.1,
    fun hb => ⟨hx.2.1 hb, hx.2.2.2.2.2 hb⟩⟩

/-- C8 witness: the amended span invariant applied to the concrete parse
of f(1). -/
theorem c8_witness :
    SpanWF 4 (.FunctionCall (.Value (.Option (.Ident "f")), 0, 1)
      [(.Value (.Option (.Value (.Number (.Int 1)))), 2, 3)]) 0 4 :=
  ((c8_amended 5 [.Ident "f", .Lparen, .Integer 1, .Rparen] 0
    (.FunctionCall (.Value (.Option (.Ident "f")), 0, 1)
      [(.Value (.Option (.Value (.Number (.Int 1)))), 2, 3)], 0, 4) 4
    rfl).2.2.2 (by omega)).2

/-- C9: every repetition construct strictly consumes input -- the
expression grammar itself consumes at least one token on success, the
argument-list parser folded by the call layer consumes at least one, every
operator step of the product, sum, logical and comparison folds consumes
at least two (the operator and its operand, so every fold iteration and
every comma-separated collector iteration advances), and consequently the
parse entry point with the canonical fuel runs to completion and never
exhausts it on any input. -/
theorem c9_progress :
    (∀ toks : List Token, expressionP (toks.length + 1) toks 0 ≠ .out) ∧
    (∀ (g : Nat) (toks : List Token) (pos : Nat) (r : Spanned ast.Expression) (q : Nat),
      expressionP g toks pos = .ok r q → pos < q) ∧
    (∀ (g f : Nat) (toks : List Token) (pos : Nat) (xs : List (Spanned ast.Expression))
        (q : Nat), list (expressionP g) f toks pos = .ok xs q → pos < q) ∧
    (∀ (g f : Nat) (toks : List Token) (pos : Nat) (op : ast.MathOp)
        (b : Spanned ast.Expression) (q : Nat),
      prodStep (expressionP g) f toks pos = .ok (op, b) q → pos + 1 < q) ∧
    (∀ (g f : Nat) (toks : List Token) (pos : Nat) (op : ast.MathOp)
        (b : Spanned ast.Expression) (q : Nat),
      sumStep (expressionP g) f toks pos = .ok (op, b) q → pos + 1 < q) ∧
    (∀ (g f : Nat) (toks : List Token) (pos : Nat) (op : ast.BinaryOp)
        (b : Spanned ast.Expression) (q : Nat),
      logStep (expressionP g) f toks pos = .ok (op, b) q → pos + 1 < q) ∧
    (∀ (g f : Nat) (toks : List Token) (pos : Nat) (op : ast.ComparisonOp)
        (b : Spanned ast.Expression) (q : Nat),
      compStep (expressionP g) f toks pos = .ok (op, b) q → pos + 1 < q) := by
  refine ⟨fun toks => expressionP_noout toks (toks.length + 1) 0 (by omega) (by omega),
    fun g toks pos r q h => (expressionP_pb toks g pos r q h).1,
    fun g f toks pos xs q h => (list_pb toks (expressionP_pb toks g) f pos xs q h).1,
    fun g f toks pos op b q h => (prodStep_pb toks (expressionP_pb toks g) f pos op b q h).1,
    fun g f toks pos op b q h => (sumStep_pb toks (expressionP_pb toks g) f pos op b q h).1,
    fun g f toks pos op b q h => (logStep_pb toks (expressionP_pb toks g) f pos op b q h).1,
    fun g f toks pos op b q h => (compStep_pb toks (expressionP_pb toks g) f pos op b q h).1⟩

/-- C9 witness: the progress statements applied at concrete inputs for
each repetition construct. -/
theorem c9_witness :
    expressionP 2 [Token.Ident "x"] 0 ≠ .out ∧
    (0 : Nat) < 1 ∧ (0 : Nat) < 3 ∧
    (0 : Nat) + 1 < 2 ∧ (0 : Nat) + 1 < 2 ∧ (0 : Nat) + 1 < 2 ∧ (0 : Nat) + 1 < 2 :=
  ⟨c9_progress.1 [Token.Ident "x"],
   c9_progress.2.1 2 [.Ident "x"] 0 (.Value (.Option (.Ident "x")), 0, 1) 1 rfl,
   c9_progress.2.2.1 3 3 [.Lparen, .Integer 1, .Rparen] 0
     [(.Value (.Option (.Value (.Number (.Int 1)))), 1, 2)] 3 rfl,
   c9_progress.2.2.2.1 2 2 [.Mul, .Integer 1] 0 .Mul
     (.Value (.Option (.Value (.Number (.Int 1)))), 1, 2) 2 rfl,
   c9_progress.2.2.2.2.1 2 2 [.Add, .Integer 1] 0 .Add
     (.Value (.Option (.Value (.Number (.Int 1)))), 1, 2) 2 rfl,
   c9_progress.2.2.2.2.2.1 2 2 [.And, .Ident "a"] 0 .And
     (.Value (.Option (.Ident "a")), 1, 2) 2 rfl,
   c9_progress.2.2.2.2.2.2 2 2 [.Eq, .Ident "a"] 0 .Eq
     (.Value (.Option (.Ident "a")), 1, 2) 2 rfl⟩

/-- C10: the atom layer wraps every literal and identifier in
Value(Option(..)) unconditionally, whether or not a QuestionMark follows:
for every identifier, the token stream of the bare name and that of the
name followed by a question mark parse to structurally identical trees,
differing only in span. -/
theorem c10_wrap_same_tree (name : String) :
    parse_from_lex [.Ident name] = some (.Value (.Option (.Ident name)), 0, 1) ∧
    parse_from_lex [.Ident name, .QuestionMark] =
      some (.Value (.Option (.Ident name)), 0, 2) :=
  ⟨rfl, rfl⟩

end DF
